import Mathlib

/-! # Media identification model of `supper`

A shallow embedding of `media/episode.go` and `media/subtitle.go`:
the episode and subtitle records, their `Identity`, `Similar` and `Merge`
methods, the regular expression `episodeRegexp` and the parser `NewEpisode`;
of the media list that `media/list/media_list_test.go` exercises; and of the
notification levels of `notify/entry.go`.

Conventions of the embedding

* Go `int` is `Int`; no arithmetic is performed on season or episode numbers.
* A Go `error` is an `Option String` (`none` is `nil`).
* A method with a pointer receiver that mutates the receiver returns the
  receiver's state after the call together with the returned error.
* A Go `string` is a `String`; the model ranges over valid UTF-8 text only.
* Values of the interface `types.Media` are the three concrete kinds of the
  package `media` (movie, episode, subtitle); a `nil` interface is not a value.
-/

namespace Supper

/-! ## Data model -/

/-- Modelled from the spec: the struct `Metadata` is declared in a file of the
package `media` that is not among the sources at hand. Section 3 of the
specification lists its facets: source, quality and codec tags, the release
group and the miscellaneous tags. -/
structure Metadata where
  Source : Nat
  Quality : Nat
  Codec : Nat
  Group : String
  Misc : List String
deriving DecidableEq, Repr

/-- Language tag of `golang.org/x/text/language`, represented by its canonical
BCP 47 rendering (what `Tag.String()` returns). -/
structure Tag where
  code : String
deriving DecidableEq, Repr

/-- Rendering of a language tag: `Tag.String()`. -/
def Tag.String (t : Tag) : String := t.code

/-- The tag `language.English`. -/
def language.English : Tag := ⟨"en"⟩

/-- The struct `Episode` of `media/episode.go` (the embedded `TypeNone` has no
fields). -/
structure Episode where
  toMetadata : Metadata
  NameX : String
  EpisodeNameX : String
  EpisodeX : Int
  SeasonX : Int
deriving DecidableEq, Repr

/-- Modelled from the spec: the struct `Movie` is declared in a file of the
package `media` that is not among the sources at hand. Its fields `NameX` and
`YearX` are the ones `media/provider/themoviedb.go` fills in. -/
structure Movie where
  toMetadata : Metadata
  NameX : String
  YearX : Int
deriving DecidableEq, Repr

/-- Values of the interface `types.Media`: a movie, an episode, or a subtitle
(`Subtitle{forMedia, lang}`) for some media. -/
inductive Media where
  | movie (m : Movie)
  | episode (e : Episode)
  | subtitle (forMedia : Media) (lang : Tag)
deriving DecidableEq, Repr

/-- The struct `Subtitle` of `media/subtitle.go`. -/
structure Subtitle where
  forMedia : Media
  lang : Tag
deriving DecidableEq, Repr

/-- A subtitle seen as a value of the interface `types.Media`. -/
def Subtitle.toMedia (l : Subtitle) : Media := Media.subtitle l.forMedia l.lang

/-- The parts of the repository that the sources at hand call but do not
contain: the helpers `parse.CleanName` and `parse.Identity`, the tag-block
scanner `ParseMetadataIndex`, and the methods of `Movie`. They are parameters
of the embedding. -/
structure Deps where
  CleanName : String → String
  Identity : String → String
  ParseMetadataIndex : String → Int × Metadata
  MovieIdentity : Movie → String
  MovieSimilar : Movie → Media → Bool
  MovieMerge : Movie → Media → Movie × Option String

/-! ## Episode methods (`media/episode.go`) -/

/-- Method `Episode.TVShow`. -/
def Episode.TVShow (e : Episode) : String := e.NameX

/-- Method `Episode.EpisodeName`. -/
def Episode.EpisodeName (e : Episode) : String := e.EpisodeNameX

/-- Method `Episode.Episode`, the episode number in the season (renamed: inside the
namespace of the type the name `Episode` is taken by the type itself). -/
def Episode.EpisodeNumber (e : Episode) : Int := e.EpisodeX

/-- Method `Episode.Season`. -/
def Episode.Season (e : Episode) : Int := e.SeasonX

/-- Method `Episode.Meta`. -/
def Episode.Meta (e : Episode) : Metadata := e.toMetadata

/-- Modelled from the spec: the struct `TypeNone`, which `Episode` and
`Subtitle` embed, is declared in a file of the package `media` that is not
among the sources at hand. Section 9 of the specification describes it as the
shared "not applicable" default of the capability queries: its `TypeEpisode`
answers `(nil, false)`. -/
def TypeNone.TypeEpisode : Option Episode := none

/-- Modelled from the spec: see `TypeNone.TypeEpisode`; the `TypeMovie` of
`TypeNone` answers `(nil, false)`. -/
def TypeNone.TypeMovie : Option Movie := none

/-- Modelled from the spec: see `TypeNone.TypeEpisode`; the `TypeSubtitle` of
`TypeNone` answers `(nil, false)`. -/
def TypeNone.TypeSubtitle : Option Subtitle := none

/-- Method `TypeEpisode` on an interface value: an episode answers with itself
(`Episode.TypeEpisode`), the other kinds answer through `TypeNone`. -/
def Media.TypeEpisode : Media → Option Episode
  | Media.episode e => some e
  | Media.movie _ => TypeNone.TypeEpisode
  | Media.subtitle _ _ => TypeNone.TypeEpisode

/-- Method `TypeSubtitle` on an interface value: a subtitle answers with itself
(`Subtitle.TypeSubtitle`), the other kinds answer through `TypeNone`. -/
def Media.TypeSubtitle : Media → Option Subtitle
  | Media.subtitle t l => some ⟨t, l⟩
  | Media.movie _ => TypeNone.TypeSubtitle
  | Media.episode _ => TypeNone.TypeSubtitle

/-- Method `TypeMovie` on an interface value: a movie answers with itself (as
the movie of `media/list/media_list_test.go` does), the other kinds answer
through `TypeNone`. -/
def Media.TypeMovie : Media → Option Movie
  | Media.movie m => some m
  | Media.episode _ => TypeNone.TypeMovie
  | Media.subtitle _ _ => TypeNone.TypeMovie

/-- Method `Episode.Identity`: `fmt.Sprintf("%s:%v:%v", parse.Identity(e.TVShow()),
e.Season(), e.Episode())`. -/
def Episode.Identity (d : Deps) (e : Episode) : String :=
  d.Identity e.TVShow ++ ":" ++ toString e.Season ++ ":" ++ toString e.EpisodeNumber

/-- Method `Episode.Similar`. -/
def Episode.Similar (e : Episode) (other : Media) : Bool :=
  match other.TypeEpisode with
  | some o =>
    if e.Season ≠ o.Season ∨ e.EpisodeNumber ≠ o.EpisodeNumber then false
    else true
  | none => false

/-- Method `Episode.Merge`: the receiver after the call and the returned error. -/
def Episode.Merge (e : Episode) (other : Media) : Episode × Option String :=
  if !e.Similar other then
    (e, some "invalid merge episodes not similar")
  else
    match other.TypeEpisode with
    | some episode =>
      ({ e with NameX := episode.TVShow, EpisodeNameX := episode.EpisodeName }, none)
    | none => (e, some "invalid media merge of different media")

/-! ## Interface dispatch and subtitle methods (`media/subtitle.go`) -/

/-- Method `Identity()` called on an interface value. The subtitle case is the body
of `Subtitle.Identity`. -/
def Media.Identity (d : Deps) : Media → String
  | Media.movie m => d.MovieIdentity m
  | Media.episode e => e.Identity d
  | Media.subtitle t l => Media.Identity d t ++ ":" ++ l.String

/-- Method `Similar(other)` called on an interface value. The subtitle case is the
body of `Subtitle.Similar`. -/
def Media.Similar (d : Deps) : Media → Media → Bool
  | Media.movie m, other => d.MovieSimilar m other
  | Media.episode e, other => e.Similar other
  | Media.subtitle t _, other =>
    match other with
    | Media.subtitle ot _ => Media.Similar d t ot
    | _ => false

/-- Method `Merge(other)` called on an interface value: the receiver after the call
and the returned error. The subtitle case is the body of `Subtitle.Merge`,
which merges into the media the subtitle points to. -/
def Media.Merge (d : Deps) : Media → Media → Media × Option String
  | Media.movie m, other => ((d.MovieMerge m other).1 |> Media.movie, (d.MovieMerge m other).2)
  | Media.episode e, other => ((e.Merge other).1 |> Media.episode, (e.Merge other).2)
  | Media.subtitle t l, other =>
    (Media.subtitle (Media.Merge d t other).1 l, (Media.Merge d t other).2)

/-- Method `Subtitle.ForMedia`. -/
def Subtitle.ForMedia (l : Subtitle) : Media := l.forMedia

/-- Method `Subtitle.Language`. -/
def Subtitle.Language (l : Subtitle) : Tag := l.lang

/-- Method `Subtitle.HearingImpaired`. -/
def Subtitle.HearingImpaired (_l : Subtitle) : Bool := false

/-- Method `Subtitle.Identity`: `fmt.Sprintf("%v:%v", l.ForMedia().Identity(),
l.Language().String())`. -/
def Subtitle.Identity (d : Deps) (l : Subtitle) : String :=
  l.ForMedia.Identity d ++ ":" ++ l.Language.String

/-- Method `Subtitle.Similar`. -/
def Subtitle.Similar (d : Deps) (l : Subtitle) (other : Media) : Bool :=
  match other.TypeSubtitle with
  | some o => l.ForMedia.Similar d o.ForMedia
  | none => false

/-- Method `Subtitle.Merge`: `return l.ForMedia().Merge(other)`; the target is held by
reference, so the subtitle afterwards points to the merged target. -/
def Subtitle.Merge (d : Deps) (l : Subtitle) (other : Media) : Subtitle × Option String :=
  ({ l with forMedia := (l.ForMedia.Merge d other).1 }, (l.ForMedia.Merge d other).2)

/-! ## Regular expressions with leftmost-first (backtracking) priorities

`regexp.MustCompile` and `FindStringSubmatch` belong to the Go standard
library. The package documents its matching discipline: among the matches that
begin earliest it returns the one a backtracking engine would find first. The
engine below enumerates, for a regular expression and a starting thread, every
way of matching in exactly that order of preference; the first entry is the
match that `FindStringSubmatch` reports. -/

/-- A thread of the matcher: the number of runes consumed so far, the runes
still ahead, and the text captured by each group (empty when the group has not
taken part, which is what `FindStringSubmatch` reports for it). -/
structure Thread where
  pos : Nat
  rest : List Char
  caps : Nat → List Char

/-- The fragment of the RE2 syntax that `episodeRegexp` uses. -/
inductive Regex where
  /-- one rune of a class, such as `\d`, `[Eex]` or `.` -/
  | cls (p : Char → Bool)
  /-- Anchor `^`, beginning of the text -/
  | bol
  /-- Anchor `$`, end of the text -/
  | eol
  /-- concatenation -/
  | seq (a b : Regex)
  /-- capturing group number `n` -/
  | cap (n : Nat) (r : Regex)
  /-- Pattern `r?` when `greedy`, else `r??` -/
  | opt (greedy : Bool) (r : Regex)
  /-- Pattern `r*` when `greedy`, else `r*?` -/
  | star (greedy : Bool) (r : Regex)

/-- Pattern `r+` when `greedy`, else `r+?`. -/
def Regex.plus (greedy : Bool) (r : Regex) : Regex := Regex.seq r (Regex.star greedy r)

/-- Pattern `r{1,2}`, which RE2 rewrites to `r(?:r)?`. -/
def Regex.rep12 (r : Regex) : Regex := Regex.seq r (Regex.opt true r)

/-- Iteration of a starred body. A greedy star prefers one more iteration to
stopping, a lazy star prefers stopping. Iterations that consume nothing are
dropped; `fuel` bounds the number of iterations by the number of runes
ahead. -/
def Regex.loop (greedy : Bool) (step : Thread → List Thread) : Nat → Thread → List Thread
  | 0, t => [t]
  | fuel + 1, t =>
    let more := ((step t).filter (fun u => u.rest.length < t.rest.length)).flatMap
      (Regex.loop greedy step fuel)
    if greedy then more ++ [t] else t :: more

/-- All the ways in which `r` matches at thread `t`, most preferred first. -/
def Regex.run : Regex → Thread → List Thread
  | Regex.cls p, t =>
    match t.rest with
    | c :: cs => if p c then [{ t with pos := t.pos + 1, rest := cs }] else []
    | [] => []
  | Regex.bol, t => if t.pos = 0 then [t] else []
  | Regex.eol, t => if t.rest.isEmpty then [t] else []
  | Regex.seq a b, t => (a.run t).flatMap (fun u => b.run u)
  | Regex.cap n r, t =>
    (r.run t).map (fun u =>
      { u with caps := fun i => if i = n then t.rest.take (u.pos - t.pos) else u.caps i })
  | Regex.opt greedy r, t => if greedy then r.run t ++ [t] else t :: r.run t
  | Regex.star greedy r, t => Regex.loop greedy (fun u => r.run u) t.rest.length t

/-- The largest group number of a regular expression (`NumSubexp`). -/
def Regex.numSubexp : Regex → Nat
  | Regex.seq a b => max a.numSubexp b.numSubexp
  | Regex.cap n r => max n r.numSubexp
  | Regex.opt _ r => r.numSubexp
  | Regex.star _ r => r.numSubexp
  | _ => 0

/-- The preferred match that starts at rune `pos`, where `rest` is the text
from there on: the matched text followed by the text of groups `1..n`. -/
def Regex.findAt (re : Regex) (pos : Nat) (rest : List Char) : Option (List (List Char)) :=
  match (re.run ⟨pos, rest, fun _ => []⟩).head? with
  | some u =>
    some (rest.take (u.pos - pos) :: (List.range re.numSubexp).map (fun i => u.caps (i + 1)))
  | none => none

/-- Leftmost match: the starting points are tried from left to right. -/
def Regex.find (re : Regex) : Nat → List Char → Option (List (List Char))
  | pos, [] => re.findAt pos []
  | pos, c :: cs =>
    match re.findAt pos (c :: cs) with
    | some m => some m
    | none => Regex.find re (pos + 1) cs

/-- Method `(*Regexp).FindStringSubmatch`: `none` is the `nil` slice. -/
def FindStringSubmatch (re : Regex) (s : String) : Option (List String) :=
  (re.find 0 s.toList).map (fun m => m.map String.mk)

/-! ### Character classes -/

/-- The range `lo-hi` of a character class. -/
def inRange (lo hi c : Char) : Bool := decide (lo.toNat ≤ c.toNat ∧ c.toNat ≤ hi.toNat)

/-- The class `\d`, `[0-9]`. -/
def isDigit (c : Char) : Bool := inRange '0' '9' c

/-- The class `\w`, `[0-9A-Za-z_]`. -/
def isWord (c : Char) : Bool :=
  inRange '0' '9' c || inRange 'A' 'Z' c || inRange 'a' 'z' c || c == '_'

/-- The class `.` without the flag `s`: any rune but the line feed. -/
def isAny (c : Char) : Bool := c != '\n'

/-- The class `[\w)]`. -/
def isWordOrParen (c : Char) : Bool := isWord c || c == ')'

/-- The class `[\W_]`. -/
def isNonWordOrUnderscore (c : Char) : Bool := !isWord c || c == '_'

/-! ## The episode parser (`media/episode.go`) -/

open Regex in
/-- The pattern
`^(.*?[\w)]+)[\W_]+?[Ss]?(\d{1,2})[Eex](\d{1,2})(?:[Ee]\d{1,2})?[\W_]*(.*)$`. -/
def episodeRegexp : Regex :=
  seq bol <|
  seq (cap 1 (seq (star false (cls isAny)) (plus true (cls isWordOrParen)))) <|
  seq (plus false (cls isNonWordOrUnderscore)) <|
  seq (opt true (cls fun c => c == 'S' || c == 's')) <|
  seq (cap 2 (rep12 (cls isDigit))) <|
  seq (cls fun c => c == 'E' || c == 'e' || c == 'x') <|
  seq (cap 3 (rep12 (cls isDigit))) <|
  seq (opt true (seq (cls fun c => c == 'E' || c == 'e') (rep12 (cls isDigit)))) <|
  seq (star true (cls isNonWordOrUnderscore)) <|
  seq (cap 4 (star true (cls isAny))) eol

/-- The value of a run of decimal digits. -/
def decimal (ds : List Char) : Nat :=
  ds.foldl (fun acc c => 10 * acc + (c.toNat - '0'.toNat)) 0

/-- Function `strconv.Atoi` into a 64-bit `int`: an optional sign followed by one or
more decimal digits, within the range of the type. -/
def Atoi (s : String) : Except String Int :=
  let body : Bool × List Char :=
    match s.toList with
    | '-' :: ds => (true, ds)
    | '+' :: ds => (false, ds)
    | ds => (false, ds)
  if body.2.isEmpty || !body.2.all isDigit then
    Except.error ("strconv.Atoi: parsing " ++ s.quote ++ ": invalid syntax")
  else if body.1 then
    if decimal body.2 ≤ 2 ^ 63 then Except.ok (-(decimal body.2 : Int))
    else Except.error ("strconv.Atoi: parsing " ++ s.quote ++ ": value out of range")
  else
    if decimal body.2 < 2 ^ 63 then Except.ok (decimal body.2 : Int)
    else Except.error ("strconv.Atoi: parsing " ++ s.quote ++ ": value out of range")

/-- The longest run of whole runes that fits in the first `n` bytes. -/
def takeBytes : List Char → Nat → List Char
  | [], _ => []
  | c :: cs, n => if c.utf8Size ≤ n then c :: takeBytes cs (n - c.utf8Size) else []

/-- The slice expression `s[:hi]`, whose bound counts bytes: `none` when the
bound is out of range, where Go panics. A bound inside a multi-byte rune would
leave a partial encoding behind, which a `String` cannot hold; the model keeps
the whole runes before it. -/
def sliceTo (s : String) (hi : Int) : Option String :=
  if 0 ≤ hi ∧ hi ≤ (s.utf8ByteSize : Int) then some (String.mk (takeBytes s.toList hi.toNat))
  else none

/-- What a call that returns `(*T, error)` can do: return a value, return an
error, or panic. -/
inductive Outcome (α : Type) where
  | ok (value : α)
  | error (msg : String)
  | panic
deriving DecidableEq, Repr

/-- Function `NewEpisode`. The slice `groups` has five entries whenever it is not
`nil`, and `groups[i]` is `groups.getD i ""`. The three ways out are the two
returns with an error, the return with an episode, and the panic of the slice
expression `tags[:end]` when `end` is out of range. -/
def NewEpisode (d : Deps) (filename : String) : Outcome Episode :=
  match FindStringSubmatch episodeRegexp filename with
  | none => Outcome.error "could not parse episode"
  | some groups =>
    let name := groups.getD 1 ""
    match Atoi (groups.getD 2 "") with
    | Except.error err => Outcome.error err
    | Except.ok season =>
      match Atoi (groups.getD 3 "") with
      | Except.error err => Outcome.error err
      | Except.ok episode =>
        let tags := groups.getD 4 ""
        match sliceTo tags (d.ParseMetadataIndex tags).1 with
        | none => Outcome.panic
        | some title =>
          Outcome.ok
            { toMetadata := (d.ParseMetadataIndex tags).2
              NameX := d.CleanName name
              EpisodeX := episode
              SeasonX := season
              EpisodeNameX := d.CleanName title }

/-! ## The collaborators as the specification describes them

The definitions of this section stand in for code that is not among the
sources at hand. They give the parameters `Deps` one concrete value, at which
the general statements below are instantiated. -/

/-- Modelled from the spec: see `parse.CleanName`. The separators that the
name normalizer collapses: dot, underscore, hyphen and space. -/
def parse.isSeparator (c : Char) : Bool := c == '.' || c == '_' || c == '-' || c == ' '

/-- Modelled from the spec: see `parse.CleanName`. The maximal runs of
characters between separators; `cur` is the run being read. -/
def parse.words (cur : List Char) : List Char → List (List Char)
  | [] => if cur = [] then [] else [cur]
  | c :: cs =>
    if parse.isSeparator c then
      if cur = [] then parse.words [] cs else cur :: parse.words [] cs
    else parse.words (cur ++ [c]) cs

/-- Modelled from the spec: `parse.CleanName` belongs to the package
`media/parse`, which is not among the sources at hand. Section 4.1 of the
specification: consecutive separators collapse to single spaces, separators at
the edges are trimmed, the casing of the words is preserved. -/
def parse.CleanName (name : String) : String :=
  String.mk ([' '].intercalate (parse.words [] name.toList))

/-- Modelled from the spec: `parse.Identity` belongs to the package
`media/parse`, which is not among the sources at hand. Section 3 of the
specification: identity strings are case-normalized and insensitive to
punctuation; ASCII characters that are neither letters nor digits are dropped
and letters are lowered. -/
def parse.Identity (str : String) : String :=
  String.mk ((str.toList.filter (fun c => isWord c && c != '_' || 128 ≤ c.toNat)).map Char.toLower)

/-- The empty bundle of metadata facets. -/
def Metadata.none : Metadata := ⟨0, 0, 0, "", []⟩

/-- Modelled from the spec: `ParseMetadataIndex` is declared in a file of the
package `media` that is not among the sources at hand, and neither are the tag
vocabularies. Section 4.2 of the specification: when no token belongs to a known
vocabulary the boundary is the end of the string and the metadata is empty;
this is the scanner with no vocabulary. -/
def ParseMetadataIndex.plain (tags : String) : Int × Metadata :=
  ((tags.utf8ByteSize : Int), Metadata.none)

/-- Modelled from the spec: the methods of `Movie` are declared in a file of
the package `media` that is not among the sources at hand. Section 3 of the
specification: the identity of a movie is its normalized name and its year. -/
def Movie.Identity (m : Movie) : String :=
  parse.Identity m.NameX ++ ":" ++ toString m.YearX

/-- Modelled from the spec: see `Movie.Identity`. Two movies are similar when
name and year match; no other kind is similar to a movie. -/
def Movie.Similar (m : Movie) (other : Media) : Bool :=
  match other.TypeMovie with
  | some o => m.NameX == o.NameX && m.YearX == o.YearX
  | none => false

/-- Modelled from the spec: see `Movie.Identity`. Merging fails on media that
is not similar and copies the canonical name otherwise. -/
def Movie.Merge (m : Movie) (other : Media) : Movie × Option String :=
  match other.TypeMovie with
  | some o =>
    if m.Similar other then ({ m with NameX := o.NameX }, none)
    else (m, some "invalid merge movies not similar")
  | none => (m, some "invalid merge movies not similar")

/-- The collaborators as the specification describes them. -/
def specDeps : Deps where
  CleanName := parse.CleanName
  Identity := parse.Identity
  ParseMetadataIndex := ParseMetadataIndex.plain
  MovieIdentity := Movie.Identity
  MovieSimilar := Movie.Similar
  MovieMerge := Movie.Merge

/-! ## Sample media -/

/-- The movie "Inception" of 2010. -/
def inception : Movie := ⟨Metadata.none, "Inception", 2010⟩

/-- Episode 2 of season 1 of "The Office". -/
def theoffice : Episode := ⟨Metadata.none, "The Office", "", 2, 1⟩

/-- Episode 7 of season 2 of "Arrow". -/
def arrow : Episode := ⟨Metadata.none, "Arrow", "", 7, 2⟩

/-- Episode 7 of season 2 of "Westworld", carrying an episode title. -/
def westworld : Episode := ⟨Metadata.none, "Westworld", "Trace Decay", 7, 2⟩

/-! ## Auxiliary definitions for the statements about the parser -/

/-- An ASCII letter. -/
def isLetter (c : Char) : Bool := inRange 'A' 'Z' c || inRange 'a' 'z' c

/-- The body of the first group of `episodeRegexp`: `.*?[\w)]+`. -/
def episodeName : Regex :=
  Regex.seq (Regex.star false (Regex.cls isAny)) (Regex.plus true (Regex.cls isWordOrParen))

open Regex in
/-- The part of `episodeRegexp` that follows the first group:
`[\W_]+?[Ss]?(\d{1,2})[Eex](\d{1,2})(?:[Ee]\d{1,2})?[\W_]*(.*)$`. -/
def episodeTail : Regex :=
  seq (plus false (cls isNonWordOrUnderscore)) <|
  seq (opt true (cls fun c => c == 'S' || c == 's')) <|
  seq (cap 2 (rep12 (cls isDigit))) <|
  seq (cls fun c => c == 'E' || c == 'e' || c == 'x') <|
  seq (cap 3 (rep12 (cls isDigit))) <|
  seq (opt true (seq (cls fun c => c == 'E' || c == 'e') (rep12 (cls isDigit)))) <|
  seq (star true (cls isNonWordOrUnderscore)) <|
  seq (cap 4 (star true (cls isAny))) eol

/-- The outcome `u` of a match from `t`: the text ahead of `t` is what was
consumed followed by the text ahead of `u`, and the position has advanced by
as much. -/
def Consumed (t u : Thread) : Prop :=
  ∃ w, t.rest = w ++ u.rest ∧ u.pos = t.pos + w.length

/-- One or more words, each of one or more ASCII letters. -/
@[reducible] def AlphabeticWords (ws : List String) : Prop :=
  ws ≠ [] ∧ ∀ w ∈ ws, w ≠ "" ∧ ∀ c ∈ w.toList, isLetter c = true

/-- A string of `n` decimal digits. -/
@[reducible] def DigitsOfLength (n : Nat) (s : String) : Prop :=
  s.length = n ∧ ∀ c ∈ s.toList, isDigit c = true

/-- A string of one or two decimal digits. -/
@[reducible] def OneOrTwoDigits (s : String) : Prop :=
  (s.length = 1 ∨ s.length = 2) ∧ ∀ c ∈ s.toList, isDigit c = true

/-- The boundary that the tag-block scanner returns for `tags` lies within
`tags`, so that the slice `tags[:end]` is in range. -/
@[reducible] def BoundaryInRange (d : Deps) (tags : String) : Prop :=
  0 ≤ (d.ParseMetadataIndex tags).1 ∧ (d.ParseMetadataIndex tags).1 ≤ (tags.utf8ByteSize : Int)

/-- An occurrence, somewhere in the text, of a decimal digit, a marker letter
and a decimal digit in a row. -/
def containsMarker (isMark : Char → Bool) : List Char → Bool
  | [] => false
  | d :: tl =>
    (match tl with
      | m :: e :: _ => isDigit d && isMark m && isDigit e
      | _ => false) || containsMarker isMark tl

/-- The episode markers that the specification lists: `E`, `e`, `x`, `X`. -/
def isMarkerLetter (c : Char) : Bool := c == 'E' || c == 'e' || c == 'x' || c == 'X'

/-! ## The media list (`media/list`)

Of the package `media/list` only the test `media_list_test.go` is among the
sources at hand. The list and its filters follow section 4.5 of the
specification; the elements of the test, which wrap a media value with the
attributes of a file, are represented by the media value they wrap. -/

/-- Modelled from the spec: the list type of the package `media/list` is not
among the sources at hand. Section 3 of the specification: an ordered sequence
of media that preserves the order of insertion and keeps duplicates. -/
structure MediaList where
  items : List Media
deriving DecidableEq, Repr

/-- Modelled from the spec: the constructor `NewLocalMedia(media...)` of the
package `media/list` is not among the sources at hand; the test builds its
list with it from the media in the order given. -/
def NewLocalMedia (media : List Media) : MediaList := ⟨media⟩

/-- Modelled from the spec: the method `Len` of the list is not among the
sources at hand; the number of elements. -/
def MediaList.Len (l : MediaList) : Nat := l.items.length

/-- Modelled from the spec: the loop of `Filter`, which is not among the
sources at hand. It walks the elements from the front and appends those that
satisfy the predicate to the list collected so far. -/
def MediaList.Filter.collect (p : Media → Bool) : List Media → List Media → List Media
  | acc, [] => acc
  | acc, m :: ms =>
    if p m then MediaList.Filter.collect p (acc ++ [m]) ms
    else MediaList.Filter.collect p acc ms

/-- Modelled from the spec: the method `Filter` of the list is not among the
sources at hand. Section 4.5 of the specification: it returns a new list that
holds, in the original order, every element for which the predicate is true,
and does not mutate the receiver. The result is the receiver after the call
and the new list. -/
def MediaList.Filter (l : MediaList) (p : Media → Bool) : MediaList × MediaList :=
  (l, ⟨MediaList.Filter.collect p [] l.items⟩)

/-- Modelled from the spec: the method `FilterVideo` of the list is not among
the sources at hand. Section 4.5 of the specification: a filter built on the
capability queries; a video is a movie or an episode. -/
def MediaList.FilterVideo (l : MediaList) : MediaList × MediaList :=
  l.Filter (fun m => m.TypeMovie.isSome || m.TypeEpisode.isSome)

/-- Modelled from the spec: see `MediaList.FilterVideo`; the filter on the
capability query `TypeMovie`. -/
def MediaList.FilterMovies (l : MediaList) : MediaList × MediaList :=
  l.Filter (fun m => m.TypeMovie.isSome)

/-- Modelled from the spec: see `MediaList.FilterVideo`; the filter on the
capability query `TypeEpisode`. -/
def MediaList.FilterEpisodes (l : MediaList) : MediaList × MediaList :=
  l.Filter (fun m => m.TypeEpisode.isSome)

/-- Modelled from the spec: see `MediaList.FilterVideo`; the filter on the
capability query `TypeSubtitle`. -/
def MediaList.FilterSubtitles (l : MediaList) : MediaList × MediaList :=
  l.Filter (fun m => m.TypeSubtitle.isSome)

/-- Modelled from the spec: the method `List` of the list is not among the
sources at hand. Section 4.5 of the specification: the list materialized as an
ordered sequence. -/
def MediaList.List (l : MediaList) : List Media := l.items

/-! ### The list of `media/list/media_list_test.go` -/

/-- The tag `language.German`. -/
def language.German : Tag := ⟨"de"⟩

/-- The tag `language.French`. -/
def language.French : Tag := ⟨"fr"⟩

/-- The tag `language.Spanish`. -/
def language.Spanish : Tag := ⟨"es"⟩

/-- The tag `language.Italian`. -/
def language.Italian : Tag := ⟨"it"⟩

/-- The tag `language.Chinese`. -/
def language.Chinese : Tag := ⟨"zh"⟩

/-- The movie `fightclub` of the test. -/
def list_test.fightclub : Movie := ⟨Metadata.none, "Fight Club", 1999⟩

/-- The movie `batmanbegins` of the test. -/
def list_test.batmanbegins : Movie := ⟨Metadata.none, "Batman Begins", 2005⟩

/-- The episode `westworld` of the test: season 1, episode 5. -/
def list_test.westworld : Episode := ⟨Metadata.none, "Westworld", "", 5, 1⟩

/-- The slice `movies` of the test. -/
def list_test.movies : List Media :=
  [Media.movie inception, Media.movie list_test.fightclub, Media.movie list_test.batmanbegins]

/-- The slice `episodes` of the test. -/
def list_test.episodes : List Media :=
  [Media.episode theoffice, Media.episode arrow, Media.episode list_test.westworld]

/-- The slice `videos` of the test. -/
def list_test.videos : List Media := list_test.movies ++ list_test.episodes

/-- The slice `subtitles` of the test: one subtitle for each video. -/
def list_test.subtitles : List Media :=
  [Media.subtitle (Media.movie inception) language.English,
    Media.subtitle (Media.movie list_test.fightclub) language.German,
    Media.subtitle (Media.movie list_test.batmanbegins) language.French,
    Media.subtitle (Media.episode theoffice) language.Spanish,
    Media.subtitle (Media.episode arrow) language.Italian,
    Media.subtitle (Media.episode list_test.westworld) language.Chinese]

/-- The list `list` of the test: the movies, the episodes, the subtitles. -/
def list_test.list : MediaList :=
  NewLocalMedia ((list_test.movies ++ list_test.episodes) ++ list_test.subtitles)

/-! ## Notification levels (`notify/entry.go`) -/

/-- The type `Level` of `notify/entry.go`, a `uint32`; no arithmetic is
performed on levels. -/
structure notify.Level where
  value : Nat
deriving DecidableEq, Repr

/-- The constant `LevelDebug`, the first of the `iota` block. -/
def notify.LevelDebug : notify.Level := ⟨0⟩

/-- The constant `LevelInfo`. -/
def notify.LevelInfo : notify.Level := ⟨1⟩

/-- The constant `LevelWarn`. -/
def notify.LevelWarn : notify.Level := ⟨2⟩

/-- The constant `LevelError`. -/
def notify.LevelError : notify.Level := ⟨3⟩

/-- The constant `LevelFatal`. -/
def notify.LevelFatal : notify.Level := ⟨4⟩

/-- Method `Level.String`: the `switch` has the cases `LevelDebug`, `LevelInfo`,
`LevelWarn` and `LevelFatal`, and the `default`. -/
def notify.Level.String (l : notify.Level) : String :=
  if l = notify.LevelDebug then "debug"
  else if l = notify.LevelInfo then "info"
  else if l = notify.LevelWarn then "warn"
  else if l = notify.LevelFatal then "fatal"
  else "unknown"

/-! ## Similarity, merge and identity -/

/-- Dispatch through the interface agrees with `Subtitle.Identity`. -/
theorem Media.Identity_subtitle (d : Deps) (l : Subtitle) :
    l.toMedia.Identity d = l.Identity d := rfl

/-- Dispatch through the interface agrees with `Subtitle.Similar`. -/
theorem Media.Similar_subtitle (d : Deps) (l : Subtitle) (other : Media) :
    l.toMedia.Similar d other = l.Similar d other := by
  cases other <;> rfl

/-- Dispatch through the interface agrees with `Subtitle.Merge`. -/
theorem Media.Merge_subtitle (d : Deps) (l : Subtitle) (other : Media) :
    l.toMedia.Merge d other = ((l.Merge d other).1.toMedia, (l.Merge d other).2) := rfl

/-- Method `Similar` of an episode holds exactly for episodes of the same season and
number. -/
theorem Episode.Similar_iff (e : Episode) (other : Media) :
    e.Similar other = true ↔
      ∃ o, other = Media.episode o ∧ e.Season = o.Season ∧ e.EpisodeNumber = o.EpisodeNumber := by
  cases other with
  | movie m => simp [Episode.Similar, Media.TypeEpisode, TypeNone.TypeEpisode]
  | subtitle t l => simp [Episode.Similar, Media.TypeEpisode, TypeNone.TypeEpisode]
  | episode o =>
    simp only [Episode.Similar, Media.TypeEpisode, TypeNone.TypeEpisode, Media.episode.injEq, exists_eq_left']
    by_cases h : e.Season = o.Season ∧ e.EpisodeNumber = o.EpisodeNumber
    · simp [h.1, h.2]
    · have h' : e.Season ≠ o.Season ∨ e.EpisodeNumber ≠ o.EpisodeNumber := by
        by_contra hc
        push_neg at hc
        exact h hc
      simp [h', h]

/-- C1 (as stated, refuted): "Arrow" S02E07 and "Westworld" S02E07 carry
different show names, yet `Similar` holds between them. -/
theorem C1_similar_despite_different_shows :
    arrow.Similar (Media.episode westworld) = true ∧ arrow.TVShow ≠ westworld.TVShow := by
  decide

/-- C1 (amended): for every two episodes `a` and `b`, `a.Similar(b)` is true
exactly when their season numbers and their episode numbers match; the show
names take no part. -/
theorem C1_similar_iff_same_season_and_number (a b : Episode) :
    a.Similar (Media.episode b) = true ↔
      a.Season = b.Season ∧ a.EpisodeNumber = b.EpisodeNumber := by
  rw [Episode.Similar_iff]
  constructor
  · rintro ⟨o, ho, h⟩
    cases ho
    exact h
  · intro h
    exact ⟨b, rfl, h⟩

/-- Appending the same string on the right is injective. -/
theorem String.append_right_cancel {a b x : String} (h : a ++ x = b ++ x) : a = b := by
  apply String.ext
  have h' := congrArg String.data h
  rw [String.data_append, String.data_append] at h'
  exact List.append_cancel_right h'

/-- C2 (as stated, refuted): merging "Westworld" S02E07 into "Arrow" S02E07
succeeds and changes the identity of the receiver from `arrow:2:7` to
`westworld:2:7`. -/
theorem C2_merge_changes_identity :
    (arrow.Merge (Media.episode westworld)).2 = none ∧
      arrow.Identity specDeps = "arrow:2:7" ∧
      (arrow.Merge (Media.episode westworld)).1.Identity specDeps = "westworld:2:7" := by
  decide

/-- C2 (amended): when `dst.Merge(src)` succeeds, `src` is an episode, the
season number, the episode number and the metadata of `dst` are unchanged and
its show name and episode title are those of `src`; hence the identity after
the merge is the key of the show name of `src` followed by the season and
episode numbers of `dst`, which is the identity before the merge exactly when
`parse.Identity` gives both show names the same key. -/
theorem C2_merge_keeps_numbers (d : Deps) (dst : Episode) (src : Media)
    (hok : (dst.Merge src).2 = none) :
    ∃ o, src = Media.episode o ∧
      (dst.Merge src).1.Season = dst.Season ∧
      (dst.Merge src).1.EpisodeNumber = dst.EpisodeNumber ∧
      (dst.Merge src).1.Meta = dst.Meta ∧
      (dst.Merge src).1.TVShow = o.TVShow ∧
      (dst.Merge src).1.EpisodeName = o.EpisodeName ∧
      (dst.Merge src).1.Identity d =
        d.Identity o.TVShow ++ ":" ++ toString dst.Season ++ ":" ++ toString dst.EpisodeNumber ∧
      ((dst.Merge src).1.Identity d = dst.Identity d ↔
        d.Identity o.TVShow = d.Identity dst.TVShow) := by
  cases src with
  | movie m => simp [Episode.Merge, Episode.Similar, Media.TypeEpisode, TypeNone.TypeEpisode] at hok
  | subtitle t l => simp [Episode.Merge, Episode.Similar, Media.TypeEpisode, TypeNone.TypeEpisode] at hok
  | episode o =>
    refine ⟨o, rfl, ?_⟩
    by_cases hs : dst.Similar (Media.episode o) = true
    · simp only [Episode.Merge, hs, Bool.not_true, Bool.false_eq_true, if_false,
        Media.TypeEpisode, Episode.Season, Episode.EpisodeNumber, Episode.Meta, Episode.TVShow,
        Episode.EpisodeName, Episode.Identity, true_and]
      constructor
      · intro h
        exact String.append_right_cancel
          (String.append_right_cancel (String.append_right_cancel (String.append_right_cancel h)))
      · intro h
        rw [h]
    · simp [Episode.Merge, hs] at hok

/-- C2 (amended), instance: "Westworld" S02E07 merged into "Arrow" S02E07. -/
theorem C2_merge_keeps_numbers_witness :
    (arrow.Merge (Media.episode westworld)).2 = none ∧
    ∃ o, Media.episode westworld = Media.episode o ∧
      (arrow.Merge (Media.episode westworld)).1.Season = arrow.Season ∧
      (arrow.Merge (Media.episode westworld)).1.EpisodeNumber = arrow.EpisodeNumber ∧
      (arrow.Merge (Media.episode westworld)).1.Meta = arrow.Meta ∧
      (arrow.Merge (Media.episode westworld)).1.TVShow = o.TVShow ∧
      (arrow.Merge (Media.episode westworld)).1.EpisodeName = o.EpisodeName ∧
      (arrow.Merge (Media.episode westworld)).1.Identity specDeps =
        specDeps.Identity o.TVShow ++ ":" ++ toString arrow.Season ++ ":" ++
          toString arrow.EpisodeNumber ∧
      ((arrow.Merge (Media.episode westworld)).1.Identity specDeps = arrow.Identity specDeps ↔
        specDeps.Identity o.TVShow = specDeps.Identity arrow.TVShow) :=
  ⟨by decide, C2_merge_keeps_numbers specDeps arrow (Media.episode westworld) (by decide)⟩

/-- C3: for every episode `e` and every media `o` that is not an episode, or
is an episode whose season or episode number differs from that of `e`,
`e.Merge(o)` returns an error and leaves `e` as it was, field by field. -/
theorem C3_merge_dissimilar_fails (e : Episode) (o : Media)
    (h : o.TypeEpisode = none ∨
      ∃ b, o = Media.episode b ∧ (b.Season ≠ e.Season ∨ b.EpisodeNumber ≠ e.EpisodeNumber)) :
    (e.Merge o).2 = some "invalid merge episodes not similar" ∧
      (e.Merge o).1.TVShow = e.TVShow ∧
      (e.Merge o).1.EpisodeName = e.EpisodeName ∧
      (e.Merge o).1.Season = e.Season ∧
      (e.Merge o).1.EpisodeNumber = e.EpisodeNumber ∧
      (e.Merge o).1.Meta = e.Meta ∧
      (e.Merge o).1 = e := by
  have hs : e.Similar o = false := by
    rw [Bool.eq_false_iff]
    intro hsim
    obtain ⟨b, hb, h1, h2⟩ := (Episode.Similar_iff e o).1 hsim
    rcases h with h | ⟨b', hb', h'⟩
    · simp [hb, Media.TypeEpisode, TypeNone.TypeEpisode] at h
    · rw [hb] at hb'
      cases hb'
      rcases h' with h' | h'
      · exact h' h1.symm
      · exact h' h2.symm
  simp [Episode.Merge, hs]

/-- C3, instances: a movie, and an episode of another season, merged into
"The Office" S01E02. -/
theorem C3_merge_dissimilar_fails_witness :
    ((Media.movie inception).TypeEpisode = none ∧
      (theoffice.Merge (Media.movie inception)).2 = some "invalid merge episodes not similar" ∧
      (theoffice.Merge (Media.movie inception)).1 = theoffice) ∧
    (arrow.Season ≠ theoffice.Season ∧
      (theoffice.Merge (Media.episode arrow)).2 = some "invalid merge episodes not similar" ∧
      (theoffice.Merge (Media.episode arrow)).1 = theoffice) :=
  ⟨⟨rfl, (C3_merge_dissimilar_fails theoffice (Media.movie inception) (Or.inl rfl)).1,
      (C3_merge_dissimilar_fails theoffice (Media.movie inception) (Or.inl rfl)).2.2.2.2.2.2⟩,
    ⟨by decide,
      (C3_merge_dissimilar_fails theoffice (Media.episode arrow)
        (Or.inr ⟨arrow, rfl, Or.inl (by decide)⟩)).1,
      (C3_merge_dissimilar_fails theoffice (Media.episode arrow)
        (Or.inr ⟨arrow, rfl, Or.inl (by decide)⟩)).2.2.2.2.2.2⟩⟩

/-- C4 (as stated, refuted): the English subtitle of "Arrow" S02E07 is not
similar to the episode "Westworld" S02E07 (which is no subtitle), yet merging
that episode into the subtitle succeeds and rewrites the target of the
subtitle. -/
theorem C4_subtitle_merges_dissimilar_media :
    Subtitle.Similar specDeps ⟨Media.episode arrow, language.English⟩
        (Media.episode westworld) = false ∧
      (Subtitle.Merge specDeps ⟨Media.episode arrow, language.English⟩
        (Media.episode westworld)).2 = none ∧
      (Subtitle.Merge specDeps ⟨Media.episode arrow, language.English⟩
        (Media.episode westworld)).1.ForMedia ≠ Media.episode arrow := by
  decide

/-- C4 (amended): `s.Merge(o)` is the merge of `o` into the target of `s`: it
returns the error of that merge and leaves `s` pointing to the merged target,
whatever `s.Similar(o)` says; for a subtitle of an episode it returns an error
and leaves the target unchanged when the target is not similar to `o`, and it
succeeds when `o` is an episode of the same season and number as the target. -/
theorem C4_subtitle_merge_is_target_merge (d : Deps) (s : Subtitle) (o : Media) :
    (s.Merge d o).2 = (s.ForMedia.Merge d o).2 ∧
      (s.Merge d o).1.ForMedia = (s.ForMedia.Merge d o).1 ∧
      (s.Merge d o).1.Language = s.Language ∧
      (∀ e, s.ForMedia = Media.episode e → e.Similar o = false →
        (s.Merge d o).2 = some "invalid merge episodes not similar" ∧ (s.Merge d o).1 = s) ∧
      (∀ e, s.ForMedia = Media.episode e → e.Similar o = true → (s.Merge d o).2 = none) := by
  refine ⟨rfl, rfl, rfl, ?_, ?_⟩
  · intro e he hs
    obtain ⟨t, l⟩ := s
    simp only [Subtitle.ForMedia] at he
    subst he
    simp [Subtitle.Merge, Subtitle.ForMedia, Media.Merge, Episode.Merge, hs]
  · intro e he hs
    obtain ⟨t, l⟩ := s
    simp only [Subtitle.ForMedia] at he
    subst he
    obtain ⟨b, hb, -⟩ := (Episode.Similar_iff e o).1 hs
    subst hb
    simp [Subtitle.Merge, Subtitle.ForMedia, Media.Merge, Episode.Merge, hs, Media.TypeEpisode, TypeNone.TypeEpisode]

/-- C4 (amended), instances: a movie is refused by the subtitle of an episode,
an episode of the same season and number is accepted. -/
theorem C4_subtitle_merge_is_target_merge_witness :
    (arrow.Similar (Media.movie inception) = false ∧
      (Subtitle.Merge specDeps ⟨Media.episode arrow, language.English⟩
        (Media.movie inception)).2 = some "invalid merge episodes not similar" ∧
      (Subtitle.Merge specDeps ⟨Media.episode arrow, language.English⟩
        (Media.movie inception)).1 = ⟨Media.episode arrow, language.English⟩) ∧
    (arrow.Similar (Media.episode westworld) = true ∧
      (Subtitle.Merge specDeps ⟨Media.episode arrow, language.English⟩
        (Media.episode westworld)).2 = none) :=
  ⟨⟨by decide,
      (C4_subtitle_merge_is_target_merge specDeps ⟨Media.episode arrow, language.English⟩
        (Media.movie inception)).2.2.2.1 arrow rfl (by decide)⟩,
    ⟨by decide,
      (C4_subtitle_merge_is_target_merge specDeps ⟨Media.episode arrow, language.English⟩
        (Media.episode westworld)).2.2.2.2 arrow rfl (by decide)⟩⟩

/-- C5: the identity of a subtitle with target `t` and language tag `l` is
`t.Identity()`, then `":"`, then `l.String()`; with the English tag it is the
identity of the target followed by `":en"`. -/
theorem C5_subtitle_identity (d : Deps) (t : Media) (l : Tag) :
    Subtitle.Identity d ⟨t, l⟩ = t.Identity d ++ ":" ++ l.String ∧
      Subtitle.Identity d ⟨t, language.English⟩ = t.Identity d ++ ":en" := by
  refine ⟨rfl, ?_⟩
  show t.Identity d ++ ":" ++ "en" = t.Identity d ++ ":en"
  rw [String.append_assoc]
  rfl

/-! ## Lemmas on the matcher -/

/-- A concatenation runs its second part from every outcome of the first. -/
theorem Regex.run_seq (a b : Regex) (t : Thread) :
    (Regex.seq a b).run t = (a.run t).flatMap b.run := rfl

/-- A class in front of a rune. -/
theorem Regex.run_cls_cons (p : Char → Bool) (pos : Nat) (c : Char) (cs : List Char)
    (caps : Nat → List Char) :
    (Regex.cls p).run ⟨pos, c :: cs, caps⟩ = if p c then [⟨pos + 1, cs, caps⟩] else [] := rfl

/-- A class at the end of the text. -/
theorem Regex.run_cls_nil (p : Char → Bool) (pos : Nat) (caps : Nat → List Char) :
    (Regex.cls p).run ⟨pos, [], caps⟩ = [] := rfl

/-- A star over a class at the end of the text. -/
theorem Regex.run_star_cls_nil (g : Bool) (p : Char → Bool) (pos : Nat)
    (caps : Nat → List Char) :
    (Regex.star g (Regex.cls p)).run ⟨pos, [], caps⟩ = [⟨pos, [], caps⟩] := rfl

/-- A star over a class in front of a rune: one unfolding of the iteration. -/
theorem Regex.run_star_cls_cons (g : Bool) (p : Char → Bool) (pos : Nat) (c : Char)
    (cs : List Char) (caps : Nat → List Char) :
    (Regex.star g (Regex.cls p)).run ⟨pos, c :: cs, caps⟩ =
      if p c then
        if g then (Regex.star g (Regex.cls p)).run ⟨pos + 1, cs, caps⟩ ++ [⟨pos, c :: cs, caps⟩]
        else ⟨pos, c :: cs, caps⟩ :: (Regex.star g (Regex.cls p)).run ⟨pos + 1, cs, caps⟩
      else [⟨pos, c :: cs, caps⟩] := by
  by_cases h : p c = true
  · cases g <;> simp [Regex.run, Regex.loop, h]
  · cases g <;> simp [Regex.run, Regex.loop, h]


/-- The first entry of a `flatMap` whose first piece is not empty. -/
theorem head?_flatMap_head {α β : Type} (f : α → List β) (a : α) (l : List α) (b : β)
    (h : (f a).head? = some b) : ((a :: l).flatMap f).head? = some b := by
  cases hfa : f a with
  | nil => simp [hfa] at h
  | cons x xs =>
    rw [hfa] at h
    simp only [List.head?_cons, Option.some.injEq] at h
    simp [List.flatMap_cons, hfa, h]

/-- The first entry of an append whose first piece is not empty. -/
theorem head?_append_head {β : Type} (l₁ l₂ : List β) (b : β)
    (h : l₁.head? = some b) : (l₁ ++ l₂).head? = some b := by
  cases l₁ with
  | nil => simp at h
  | cons x xs => simpa using h

/-- A lazy star offers the thread it starts from first. -/
theorem Regex.run_star_lazy_head (p : Char → Bool) (t : Thread) :
    ∃ more, (Regex.star false (Regex.cls p)).run t = t :: more := by
  obtain ⟨pos, rest, caps⟩ := t
  cases rest with
  | nil => exact ⟨[], rfl⟩
  | cons c cs =>
    rw [Regex.run_star_cls_cons]
    by_cases h : p c = true
    · exact ⟨(Regex.star false (Regex.cls p)).run ⟨pos + 1, cs, caps⟩, by simp [h]⟩
    · exact ⟨[], by simp [h]⟩

/-- A lazy star moves past a run of admissible runes on which the continuation
fails. -/
theorem Regex.lazy_skip (p : Char → Bool) (K : Thread → List Thread) (caps : Nat → List Char)
    (u r : List Char) (pos : Nat) (hp : ∀ c ∈ u, p c = true)
    (hK : ∀ j, j < u.length → K ⟨pos + j, u.drop j ++ r, caps⟩ = []) :
    ((Regex.star false (Regex.cls p)).run ⟨pos, u ++ r, caps⟩).flatMap K =
      ((Regex.star false (Regex.cls p)).run ⟨pos + u.length, r, caps⟩).flatMap K := by
  induction u generalizing pos with
  | nil => simp
  | cons c cs ih =>
    have hc : p c = true := hp c (List.mem_cons_self _ _)
    have h0 := hK 0 (by simp)
    simp only [Nat.add_zero, List.drop_zero] at h0
    rw [List.cons_append, Regex.run_star_cls_cons]
    simp only [hc, if_true, Bool.false_eq_true, if_false, List.flatMap_cons]
    rw [← List.cons_append, h0, List.nil_append, ih (pos + 1)
      (fun c' hc' => hp c' (List.mem_cons_of_mem _ hc'))]
    · simp [Nat.add_assoc, Nat.add_comm 1]
    · intro j hj
      have := hK (j + 1) (by simpa using hj)
      simpa [Nat.add_assoc, Nat.add_comm 1] using this

/-- The threads of a greedy star over a run `u₁ ++ u₂` of admissible runes that
ends the text or is followed by an inadmissible rune: when the continuation
fails wherever the star stops inside or after `u₂`, the preferred outcome is
that of stopping right after `u₁`. -/
theorem Regex.greedy_back (p : Char → Bool) (K : Thread → List Thread) (caps : Nat → List Char)
    (u₁ u₂ r : List Char) (pos : Nat) (hp₁ : ∀ c ∈ u₁, p c = true) (hp₂ : ∀ c ∈ u₂, p c = true)
    (hr : ∀ c ∈ r.head?, p c = false)
    (hK : ∀ j, 0 < j → j ≤ u₂.length →
      K ⟨pos + u₁.length + j, u₂.drop j ++ r, caps⟩ = []) :
    ∃ more, ((Regex.star true (Regex.cls p)).run ⟨pos, u₁ ++ (u₂ ++ r), caps⟩).flatMap K =
      K ⟨pos + u₁.length, u₂ ++ r, caps⟩ ++ more := by
  induction u₁ generalizing pos with
  | nil =>
    refine ⟨[], ?_⟩
    simp only [List.nil_append, List.length_nil, Nat.add_zero, List.append_nil]
    simp only [List.length_nil, Nat.add_zero] at hK
    clear hp₁
    induction u₂ generalizing pos with
    | nil =>
      cases r with
      | nil => simp [Regex.run_star_cls_nil]
      | cons c cs =>
        have : p c = false := hr c (by simp)
        simp [Regex.run_star_cls_cons, this]
    | cons c cs ih =>
      have hc : p c = true := hp₂ c (List.mem_cons_self _ _)
      rw [List.cons_append, Regex.run_star_cls_cons]
      simp only [hc, if_true, List.flatMap_append, List.flatMap_cons, List.flatMap_nil,
        List.append_nil]
      have h1 := hK 1 (by simp) (by simp)
      simp only [List.drop_one, List.tail_cons] at h1
      rw [ih (fun c' hc' => hp₂ c' (List.mem_cons_of_mem _ hc')) (pos + 1), h1, List.nil_append]
      intro j hj hj'
      have := hK (j + 1) (by omega) (by simpa using hj')
      simpa [Nat.add_assoc, Nat.add_comm 1] using this
  | cons c cs ih =>
    have hc : p c = true := hp₁ c (List.mem_cons_self _ _)
    obtain ⟨more, hmore⟩ := ih (pos + 1) (fun c' hc' => hp₁ c' (List.mem_cons_of_mem _ hc'))
      (by
        intro j hj hj'
        have := hK j hj hj'
        simpa [Nat.add_assoc, Nat.add_comm 1] using this)
    refine ⟨more ++ K ⟨pos, c :: (cs ++ (u₂ ++ r)), caps⟩, ?_⟩
    rw [List.cons_append, Regex.run_star_cls_cons]
    simp only [hc, if_true, List.flatMap_append, List.flatMap_cons, List.flatMap_nil,
      List.append_nil]
    rw [hmore]
    simp [Nat.add_assoc, Nat.add_comm 1]

/-- Every thread of a star over a class has consumed a run of admissible runes
and kept the captures. -/
theorem Regex.mem_run_star_cls (g : Bool) (p : Char → Bool) (caps : Nat → List Char)
    (rest : List Char) (pos : Nat) (x : Thread)
    (hx : x ∈ (Regex.star g (Regex.cls p)).run ⟨pos, rest, caps⟩) :
    ∃ k, k ≤ rest.length ∧ (∀ c ∈ rest.take k, p c = true) ∧
      x = ⟨pos + k, rest.drop k, caps⟩ := by
  induction rest generalizing pos with
  | nil =>
    simp only [Regex.run_star_cls_nil, List.mem_singleton] at hx
    exact ⟨0, by simp, by simp, by simpa using hx⟩
  | cons c cs ih =>
    rw [Regex.run_star_cls_cons] at hx
    have hself : x = ⟨pos, c :: cs, caps⟩ →
        ∃ k, k ≤ (c :: cs).length ∧ (∀ c' ∈ (c :: cs).take k, p c' = true) ∧
          x = ⟨pos + k, (c :: cs).drop k, caps⟩ := fun h => ⟨0, by simp, by simp, by simpa using h⟩
    have hmore : p c = true → x ∈ (Regex.star g (Regex.cls p)).run ⟨pos + 1, cs, caps⟩ →
        ∃ k, k ≤ (c :: cs).length ∧ (∀ c' ∈ (c :: cs).take k, p c' = true) ∧
          x = ⟨pos + k, (c :: cs).drop k, caps⟩ := by
      intro hc h
      obtain ⟨k, hk, hall, hxk⟩ := ih (pos + 1) h
      refine ⟨k + 1, by simpa using hk, ?_, ?_⟩
      · intro c' hc'
        simp only [List.take_succ_cons, List.mem_cons] at hc'
        rcases hc' with rfl | hc'
        · exact hc
        · exact hall c' hc'
      · simpa [Nat.add_assoc, Nat.add_comm 1] using hxk
    by_cases hc : p c = true
    · cases g
      · simp only [hc, if_true, Bool.false_eq_true, if_false, List.mem_cons] at hx
        rcases hx with hx | hx
        · exact hself hx
        · exact hmore hc hx
      · simp only [hc, if_true, List.mem_append, List.mem_singleton] at hx
        rcases hx with hx | hx
        · exact hmore hc hx
        · exact hself hx
    · simp only [hc, if_false, List.mem_singleton, Bool.false_eq_true] at hx
      exact hself hx

/-! ### Character classes -/

/-- The pattern is `^`, the first group and the rest. -/
theorem episodeRegexp_eq :
    episodeRegexp = Regex.seq Regex.bol (Regex.seq (Regex.cap 1 episodeName) episodeTail) := rfl

/-- Membership in a range of a class, on code points. -/
theorem inRange_iff (lo hi c : Char) :
    inRange lo hi c = true ↔ lo.toNat ≤ c.toNat ∧ c.toNat ≤ hi.toNat := by
  simp [inRange]

/-- The digits are the code points 48 to 57. -/
theorem isDigit_iff (c : Char) : isDigit c = true ↔ 48 ≤ c.toNat ∧ c.toNat ≤ 57 := by
  rw [isDigit, inRange_iff]
  rfl

/-- The ASCII letters are the code points 65 to 90 and 97 to 122. -/
theorem isLetter_iff (c : Char) :
    isLetter c = true ↔ (65 ≤ c.toNat ∧ c.toNat ≤ 90) ∨ (97 ≤ c.toNat ∧ c.toNat ≤ 122) := by
  rw [isLetter, Bool.or_eq_true, inRange_iff, inRange_iff]
  rfl

/-- The word runes are the digits, the ASCII letters and the underscore. -/
theorem isWord_iff (c : Char) :
    isWord c = true ↔ (48 ≤ c.toNat ∧ c.toNat ≤ 57) ∨ (65 ≤ c.toNat ∧ c.toNat ≤ 90) ∨
      (97 ≤ c.toNat ∧ c.toNat ≤ 122) ∨ c.toNat = 95 := by
  have h95 : c = '_' ↔ c.toNat = 95 := by
    constructor
    · rintro rfl
      rfl
    · intro h
      apply Char.ext
      apply UInt32.ext
      simpa [Char.toNat] using h
  rw [isWord, Bool.or_eq_true, Bool.or_eq_true, Bool.or_eq_true, inRange_iff, inRange_iff,
    inRange_iff, beq_iff_eq, h95, or_assoc, or_assoc]
  rfl

/-- A letter is of the class `[\w)]`. -/
theorem isWordOrParen_of_isLetter {c : Char} (h : isLetter c = true) :
    isWordOrParen c = true := by
  have hw : isWord c = true := by
    rw [isWord_iff]
    rw [isLetter_iff] at h
    omega
  simp [isWordOrParen, hw]

/-- A letter is not of the class `[\W_]`. -/
theorem isNonWordOrUnderscore_of_isLetter {c : Char} (h : isLetter c = true) :
    isNonWordOrUnderscore c = false := by
  have hw : isWord c = true := by
    rw [isWord_iff]
    rw [isLetter_iff] at h
    omega
  have hu : c ≠ '_' := by
    rintro rfl
    exact absurd h (by decide)
  simp [isNonWordOrUnderscore, hw, hu]

/-- A letter is no digit. -/
theorem isDigit_of_isLetter {c : Char} (h : isLetter c = true) : isDigit c = false := by
  rw [Bool.eq_false_iff, Ne, isDigit_iff]
  rw [isLetter_iff] at h
  omega

/-- A letter is no line feed. -/
theorem isAny_of_isLetter {c : Char} (h : isLetter c = true) : isAny c = true := by
  have hu : c ≠ '\n' := by
    rintro rfl
    exact absurd h (by decide)
  simp [isAny, hu]

/-- A digit is of the class `[\w)]`. -/
theorem isWordOrParen_of_isDigit {c : Char} (h : isDigit c = true) :
    isWordOrParen c = true := by
  have hw : isWord c = true := by
    rw [isWord_iff]
    rw [isDigit_iff] at h
    omega
  simp [isWordOrParen, hw]

/-- A digit is not of the class `[\W_]`. -/
theorem isNonWordOrUnderscore_of_isDigit {c : Char} (h : isDigit c = true) :
    isNonWordOrUnderscore c = false := by
  have hw : isWord c = true := by
    rw [isWord_iff]
    rw [isDigit_iff] at h
    omega
  have hu : c ≠ '_' := by
    rintro rfl
    exact absurd h (by decide)
  simp [isNonWordOrUnderscore, hw, hu]

/-- A digit is no line feed. -/
theorem isAny_of_isDigit {c : Char} (h : isDigit c = true) : isAny c = true := by
  have hu : c ≠ '\n' := by
    rintro rfl
    exact absurd h (by decide)
  simp [isAny, hu]

/-- A digit is not of the class `[Ss]`. -/
theorem not_season_mark_of_isDigit {c : Char} (h : isDigit c = true) :
    (c == 'S' || c == 's') = false := by
  have h1 : c ≠ 'S' := by
    rintro rfl
    exact absurd h (by decide)
  have h2 : c ≠ 's' := by
    rintro rfl
    exact absurd h (by decide)
  simp [h1, h2]

/-- A rune of the class `[\W_]` is no digit. -/
theorem isDigit_of_isNonWordOrUnderscore {c : Char} (h : isNonWordOrUnderscore c = true) :
    isDigit c = false := by
  rw [Bool.eq_false_iff]
  intro hd
  rw [isNonWordOrUnderscore_of_isDigit hd] at h
  exact absurd h (by decide)

/-- A rune of the class `[\W_]` is not of the class `[Ee]`. -/
theorem not_second_mark_of_isNonWordOrUnderscore {c : Char}
    (h : isNonWordOrUnderscore c = true) : (c == 'E' || c == 'e') = false := by
  have h1 : c ≠ 'E' := by
    rintro rfl
    exact absurd h (by decide)
  have h2 : c ≠ 'e' := by
    rintro rfl
    exact absurd h (by decide)
  simp [h1, h2]

/-- A rune of the class `[Eex]` is no digit. -/
theorem isDigit_of_episode_mark {c : Char} (h : (c == 'E' || c == 'e' || c == 'x') = true) :
    isDigit c = false := by
  simp only [Bool.or_eq_true, beq_iff_eq] at h
  rcases h with (rfl | rfl) | rfl <;> decide

/-- A rune of the class `[Ee]` is no digit. -/
theorem isDigit_of_second_mark {c : Char} (h : (c == 'E' || c == 'e') = true) :
    isDigit c = false := by
  simp only [Bool.or_eq_true, beq_iff_eq] at h
  rcases h with rfl | rfl <;> decide

/-! ### Preferred outcomes of the pieces of the pattern -/

/-- An optional part, by its preference. -/
theorem Regex.run_opt (g : Bool) (r : Regex) (t : Thread) :
    (Regex.opt g r).run t = if g then r.run t ++ [t] else t :: r.run t := rfl

/-- A capturing group records the text between its two ends. -/
theorem Regex.run_cap (n : Nat) (r : Regex) (t : Thread) :
    (Regex.cap n r).run t = (r.run t).map (fun u =>
      { u with caps := fun i => if i = n then t.rest.take (u.pos - t.pos) else u.caps i }) := rfl

/-- The preferred outcome of a concatenation whose first part leads, by its
preferred outcome, to a success of the second. -/
theorem Regex.head_seq (a b : Regex) (t m u : Thread) (ha : (a.run t).head? = some m)
    (hb : (b.run m).head? = some u) : ((Regex.seq a b).run t).head? = some u := by
  rw [Regex.run_seq]
  cases hl : a.run t with
  | nil => simp [hl] at ha
  | cons x xs =>
    rw [hl] at ha
    simp only [List.head?_cons, Option.some.injEq] at ha
    subst ha
    exact head?_flatMap_head _ _ _ _ hb

/-- Pattern `p+?` prefers a single rune. -/
theorem Regex.head_plus_lazy (p : Char → Bool) (pos : Nat) (c : Char) (r : List Char)
    (caps : Nat → List Char) (hc : p c = true) :
    ((Regex.plus false (Regex.cls p)).run ⟨pos, c :: r, caps⟩).head? = some ⟨pos + 1, r, caps⟩ := by
  refine Regex.head_seq _ _ _ ⟨pos + 1, r, caps⟩ _ (by simp [Regex.run_cls_cons, hc]) ?_
  obtain ⟨more, h⟩ := Regex.run_star_lazy_head p ⟨pos + 1, r, caps⟩
  rw [h]
  rfl

/-- Pattern `p?` prefers to take a rune of the class. -/
theorem Regex.head_opt_cls_take (p : Char → Bool) (pos : Nat) (c : Char) (r : List Char)
    (caps : Nat → List Char) (hc : p c = true) :
    ((Regex.opt true (Regex.cls p)).run ⟨pos, c :: r, caps⟩).head? = some ⟨pos + 1, r, caps⟩ := by
  simp [Regex.run_opt, Regex.run_cls_cons, hc]

/-- Pattern `p?` takes nothing when the next rune is not of the class. -/
theorem Regex.head_opt_cls_skip (p : Char → Bool) (pos : Nat) (r : List Char)
    (caps : Nat → List Char) (hr : ∀ c ∈ r.head?, p c = false) :
    ((Regex.opt true (Regex.cls p)).run ⟨pos, r, caps⟩).head? = some ⟨pos, r, caps⟩ := by
  cases r with
  | nil => simp [Regex.run_opt, Regex.run_cls_nil]
  | cons c cs =>
    have : p c = false := hr c (by simp)
    simp [Regex.run_opt, Regex.run_cls_cons, this]

/-- Pattern `p{1,2}` takes a run of one or two runes of the class that is not followed
by a third. -/
theorem Regex.head_rep12 (p : Char → Bool) (pos : Nat) (ds r : List Char)
    (caps : Nat → List Char) (hlen : ds.length = 1 ∨ ds.length = 2)
    (hds : ∀ c ∈ ds, p c = true) (hr : ∀ c ∈ r.head?, p c = false) :
    ((Regex.rep12 (Regex.cls p)).run ⟨pos, ds ++ r, caps⟩).head? =
      some ⟨pos + ds.length, r, caps⟩ := by
  match ds, hlen, hds with
  | [a], _, hds =>
    have ha : p a = true := hds a (by simp)
    exact Regex.head_seq _ _ _ ⟨pos + 1, r, caps⟩ _ (by simp [Regex.run_cls_cons, ha])
      (Regex.head_opt_cls_skip p (pos + 1) r caps hr)
  | [a, b], _, hds =>
    have ha : p a = true := hds a (by simp)
    have hb : p b = true := hds b (by simp)
    exact Regex.head_seq _ _ _ ⟨pos + 1, b :: r, caps⟩ _ (by simp [Regex.run_cls_cons, ha])
      (Regex.head_opt_cls_take p (pos + 1) b r caps hb)
  | [], h, _ => simp at h
  | _ :: _ :: _ :: _, h, _ => simp at h

/-- A capturing group records what its body consumed. -/
theorem Regex.head_cap (n : Nat) (r : Regex) (pos k : Nat) (rest rest' : List Char)
    (caps caps' : Nat → List Char)
    (h : (r.run ⟨pos, rest, caps⟩).head? = some ⟨pos + k, rest', caps'⟩) :
    ((Regex.cap n r).run ⟨pos, rest, caps⟩).head? =
      some ⟨pos + k, rest', fun i => if i = n then rest.take k else caps' i⟩ := by
  rw [Regex.run_cap, List.head?_map, h]
  simp

/-- A greedy star over a class prefers the longest run of the class. -/
theorem Regex.head_star_greedy (p : Char → Bool) (pos : Nat) (r : List Char)
    (caps : Nat → List Char) :
    ((Regex.star true (Regex.cls p)).run ⟨pos, r, caps⟩).head? =
      some ⟨pos + (r.takeWhile p).length, r.dropWhile p, caps⟩ := by
  induction r generalizing pos with
  | nil => simp [Regex.run_star_cls_nil]
  | cons c cs ih =>
    rw [Regex.run_star_cls_cons]
    by_cases hc : p c = true
    · simp only [hc, if_true]
      rw [head?_append_head _ _ _ (ih (pos + 1))]
      simp [List.takeWhile_cons, List.dropWhile_cons, hc, Nat.add_assoc, Nat.add_comm 1]
    · simp [List.takeWhile_cons, List.dropWhile_cons, hc]

/-- The anchor `$` at the end of the text. -/
theorem Regex.run_eol_nil (pos : Nat) (caps : Nat → List Char) :
    Regex.eol.run ⟨pos, [], caps⟩ = [⟨pos, [], caps⟩] := rfl

/-- The whole list is taken when every entry passes. -/
theorem takeWhile_eq_self_of_all {α : Type} (p : α → Bool) (l : List α)
    (h : ∀ c ∈ l, p c = true) : l.takeWhile p = l := by
  induction l with
  | nil => rfl
  | cons c cs ih =>
    simp [List.takeWhile_cons, h c (List.mem_cons_self _ _),
      ih (fun c' hc' => h c' (List.mem_cons_of_mem _ hc'))]

/-- Nothing is left when every entry passes. -/
theorem dropWhile_eq_nil_of_all {α : Type} (p : α → Bool) (l : List α)
    (h : ∀ c ∈ l, p c = true) : l.dropWhile p = [] := by
  induction l with
  | nil => rfl
  | cons c cs ih =>
    simp [List.dropWhile_cons, h c (List.mem_cons_self _ _),
      ih (fun c' hc' => h c' (List.mem_cons_of_mem _ hc'))]

/-- What holds of every entry of a list that is not empty holds of the first entry of an append. -/
theorem forall_head?_append {α : Type} {P : α → Prop} (ds r : List α) (hne : ds ≠ [])
    (h : ∀ c ∈ ds, P c) : ∀ c ∈ (ds ++ r).head?, P c := by
  cases ds with
  | nil => exact absurd rfl hne
  | cons a as =>
    intro c hc
    simp only [List.cons_append, List.head?_cons, Option.mem_def, Option.some.injEq] at hc
    subst hc
    exact h _ (List.mem_cons_self _ _)

/-- One or two decimal digits. -/
theorem ne_nil_of_length_12 {ds : List Char} (h : ds.length = 1 ∨ ds.length = 2) : ds ≠ [] := by
  rintro rfl
  simp at h

/-- The preferred outcome of the part of the pattern after the first group, on
a separator, an optional `S`, the season digits, a marker, the episode digits,
an optional second marker with its digits, and a remainder that is empty or
begins with a separator: everything is consumed, group 2 holds the season
digits, group 3 the episode digits and group 4 the remainder without its
leading separators. -/
theorem episodeTail_head (pos : Nat) (caps : Nat → List Char) (s m : Char)
    (sOpt ss ee snd more : List Char)
    (hs : isNonWordOrUnderscore s = true)
    (hS : sOpt = [] ∨ sOpt = ['S'] ∨ sOpt = ['s'])
    (hssl : ss.length = 1 ∨ ss.length = 2) (hss : ∀ c ∈ ss, isDigit c = true)
    (hm : (m == 'E' || m == 'e' || m == 'x') = true)
    (heel : ee.length = 1 ∨ ee.length = 2) (hee : ∀ c ∈ ee, isDigit c = true)
    (hsnd : snd = [] ∨ ∃ e ds, snd = e :: ds ∧ (e == 'E' || e == 'e') = true ∧
      (ds.length = 1 ∨ ds.length = 2) ∧ ∀ c ∈ ds, isDigit c = true)
    (hmore : ∀ c ∈ more.head?, isNonWordOrUnderscore c = true)
    (hnl : ∀ c ∈ more, isAny c = true) :
    ∃ u, (episodeTail.run ⟨pos, s :: (sOpt ++ (ss ++ (m :: (ee ++ (snd ++ more))))), caps⟩).head?
        = some u ∧
      u.rest = [] ∧ u.caps 1 = caps 1 ∧ u.caps 2 = ss ∧ u.caps 3 = ee ∧
      u.caps 4 = more.dropWhile isNonWordOrUnderscore := by
  have hmored : ∀ c ∈ more.head?, isDigit c = false :=
    fun c hc => isDigit_of_isNonWordOrUnderscore (hmore c hc)
  -- the second marker and what follows the episode digits
  have hafter : ∀ c ∈ (snd ++ more).head?, isDigit c = false := by
    rcases hsnd with rfl | ⟨e, ds, rfl, he, -, -⟩
    · simpa using hmored
    · intro c hc
      simp only [List.cons_append, List.head?_cons, Option.mem_def, Option.some.injEq] at hc
      subst hc
      exact isDigit_of_second_mark he
  have h6 : ∃ k, ((Regex.opt true (Regex.seq (Regex.cls fun c => c == 'E' || c == 'e')
      (Regex.rep12 (Regex.cls isDigit)))).run
        ⟨pos + 1 + sOpt.length + ss.length + 1 + ee.length, snd ++ more,
          fun i => if i = 3 then ee else if i = 2 then ss else caps i⟩).head? =
      some ⟨k, more, fun i => if i = 3 then ee else if i = 2 then ss else caps i⟩ := by
    rcases hsnd with rfl | ⟨e, ds, rfl, he, hdl, hds⟩
    · refine ⟨pos + 1 + sOpt.length + ss.length + 1 + ee.length, ?_⟩
      rw [Regex.run_opt, Regex.run_seq]
      cases more with
      | nil => simp [Regex.run_cls_nil]
      | cons c cs =>
        have hc := not_second_mark_of_isNonWordOrUnderscore (hmore c (by simp))
        simp only [List.nil_append, Regex.run_cls_cons]
        simp [hc]
    · refine ⟨pos + 1 + sOpt.length + ss.length + 1 + ee.length + 1 + ds.length, ?_⟩
      rw [Regex.run_opt]
      simp only [if_true]
      refine head?_append_head _ _ _ ?_
      exact Regex.head_seq _ _ _
        ⟨pos + 1 + sOpt.length + ss.length + 1 + ee.length + 1, ds ++ more, _⟩ _
        (by simp only [List.cons_append, Regex.run_cls_cons]; simp [he])
        (Regex.head_rep12 isDigit _ ds more _ hdl hds hmored)
  obtain ⟨k, h6⟩ := h6
  refine ⟨⟨k + (more.takeWhile isNonWordOrUnderscore).length
      + (more.dropWhile isNonWordOrUnderscore).length, [],
    fun i => if i = 4 then more.dropWhile isNonWordOrUnderscore
      else if i = 3 then ee else if i = 2 then ss else caps i⟩, ?_, rfl, ?_, ?_, ?_, ?_⟩
  · rw [episodeTail]
    -- the separator
    refine Regex.head_seq _ _ _ ⟨pos + 1, sOpt ++ (ss ++ (m :: (ee ++ (snd ++ more)))), caps⟩ _
      (Regex.head_plus_lazy _ pos s _ caps hs) ?_
    -- the optional `S`
    refine Regex.head_seq _ _ _
      ⟨pos + 1 + sOpt.length, ss ++ (m :: (ee ++ (snd ++ more))), caps⟩ _ ?_ ?_
    · rcases hS with rfl | rfl | rfl
      · exact Regex.head_opt_cls_skip _ _ _ _
          (forall_head?_append ss _ (ne_nil_of_length_12 hssl)
            (fun c hc => not_season_mark_of_isDigit (hss c hc)))
      · exact Regex.head_opt_cls_take _ _ _ _ _ (by decide)
      · exact Regex.head_opt_cls_take _ _ _ _ _ (by decide)
    -- the season digits
    refine Regex.head_seq _ _ _
      ⟨pos + 1 + sOpt.length + ss.length, m :: (ee ++ (snd ++ more)),
        fun i => if i = 2 then ss else caps i⟩ _ ?_ ?_
    · have := Regex.head_cap 2 (Regex.rep12 (Regex.cls isDigit)) (pos + 1 + sOpt.length)
        ss.length (ss ++ (m :: (ee ++ (snd ++ more)))) (m :: (ee ++ (snd ++ more))) caps caps
        (Regex.head_rep12 isDigit (pos + 1 + sOpt.length) ss (m :: (ee ++ (snd ++ more))) caps
          hssl hss (by simpa using isDigit_of_episode_mark hm))
      simpa using this
    -- the marker
    refine Regex.head_seq _ _ _
      ⟨pos + 1 + sOpt.length + ss.length + 1, ee ++ (snd ++ more),
        fun i => if i = 2 then ss else caps i⟩ _ (by simp [Regex.run_cls_cons, hm]) ?_
    -- the episode digits
    refine Regex.head_seq _ _ _
      ⟨pos + 1 + sOpt.length + ss.length + 1 + ee.length, snd ++ more,
        fun i => if i = 3 then ee else if i = 2 then ss else caps i⟩ _ ?_ ?_
    · have := Regex.head_cap 3 (Regex.rep12 (Regex.cls isDigit))
        (pos + 1 + sOpt.length + ss.length + 1) ee.length (ee ++ (snd ++ more)) (snd ++ more)
        (fun i => if i = 2 then ss else caps i) (fun i => if i = 2 then ss else caps i)
        (Regex.head_rep12 isDigit (pos + 1 + sOpt.length + ss.length + 1) ee (snd ++ more) _
          heel hee hafter)
      simpa using this
    -- the second marker
    refine Regex.head_seq _ _ _ _ _ h6 ?_
    -- the separators before the tags
    refine Regex.head_seq _ _ _ _ _ (Regex.head_star_greedy _ _ _ _) ?_
    -- the tags
    have hnl' : ∀ c ∈ more.dropWhile isNonWordOrUnderscore, isAny c = true :=
      fun c hc => hnl c ((List.dropWhile_suffix _).subset hc)
    have h7 := Regex.head_star_greedy isAny (k + (more.takeWhile isNonWordOrUnderscore).length)
        (more.dropWhile isNonWordOrUnderscore)
        (fun i => if i = 3 then ee else if i = 2 then ss else caps i)
    rw [takeWhile_eq_self_of_all _ _ hnl', dropWhile_eq_nil_of_all _ _ hnl'] at h7
    have h8 := Regex.head_cap 4 (Regex.star true (Regex.cls isAny))
      (k + (more.takeWhile isNonWordOrUnderscore).length)
      (more.dropWhile isNonWordOrUnderscore).length (more.dropWhile isNonWordOrUnderscore) []
      (fun i => if i = 3 then ee else if i = 2 then ss else caps i)
      (fun i => if i = 3 then ee else if i = 2 then ss else caps i) h7
    rw [List.take_length] at h8
    refine Regex.head_seq _ _ _ _ _ h8 ?_
    simp [Regex.run_eol_nil]
  · simp
  · simp
  · simp
  · simp

/-! ### Where the part after the first group cannot match -/

/-- The pattern `r+` is `r` followed by `r*`. -/
theorem Regex.run_plus (g : Bool) (r : Regex) (t : Thread) :
    (Regex.plus g r).run t = (r.run t).flatMap (Regex.star g r).run := rfl

/-- The pattern `r{1,2}` is `r` followed by `r?`. -/
theorem Regex.run_rep12 (r : Regex) (t : Thread) :
    (Regex.rep12 r).run t = (r.run t).flatMap (Regex.opt true r).run := rfl

/-- Nothing matches at the end of the text. -/
theorem episodeTail_nil (pos : Nat) (caps : Nat → List Char) :
    episodeTail.run ⟨pos, [], caps⟩ = [] := rfl

/-- Nothing matches in front of a rune that is no separator. -/
theorem episodeTail_nonsep (pos : Nat) (caps : Nat → List Char) (c : Char) (cs : List Char)
    (hc : isNonWordOrUnderscore c = false) : episodeTail.run ⟨pos, c :: cs, caps⟩ = [] := by
  rw [episodeTail, Regex.run_seq, Regex.run_plus, Regex.run_cls_cons]
  simp [hc]

/-- Nothing matches in front of a separator that is followed by a letter and
then by a rune that is no digit. -/
theorem episodeTail_sep_word (pos : Nat) (caps : Nat → List Char) (s a b : Char)
    (r : List Char) (ha : isLetter a = true) (hb : isDigit b = false) :
    episodeTail.run ⟨pos, s :: a :: b :: r, caps⟩ = [] := by
  have ha1 := isNonWordOrUnderscore_of_isLetter ha
  have ha2 := isDigit_of_isLetter ha
  rw [episodeTail, Regex.run_seq, Regex.run_plus, Regex.run_cls_cons]
  by_cases hs : isNonWordOrUnderscore s = true
  · simp only [hs, if_true, List.flatMap_cons, List.flatMap_nil, List.append_nil,
      Regex.run_star_cls_cons, ha1, Bool.false_eq_true, if_false]
    rw [Regex.run_seq, Regex.run_opt, Regex.run_cls_cons]
    by_cases hS : (a == 'S' || a == 's') = true
    · simp [hS, Regex.run_seq, Regex.run_cap, Regex.run_rep12, Regex.run_cls_cons, ha2, hb]
    · simp [hS, Regex.run_seq, Regex.run_cap, Regex.run_rep12, Regex.run_cls_cons, ha2]
  · simp [hs]

/-! ### The first group -/

/-- The concatenation of the first group and the rest of the pattern, with the
capture of group 1 made explicit. -/
theorem episodeName_run (t : Thread) :
    (Regex.seq (Regex.cap 1 episodeName) episodeTail).run t =
      ((Regex.star false (Regex.cls isAny)).run t).flatMap (fun u =>
        ((Regex.plus true (Regex.cls isWordOrParen)).run u).flatMap (fun v =>
          episodeTail.run
            ⟨v.pos, v.rest, fun i => if i = 1 then t.rest.take (v.pos - t.pos) else v.caps i⟩)) := by
  rw [Regex.run_seq, Regex.run_cap, List.flatMap_map, episodeName, Regex.run_seq,
    List.flatMap_assoc]

/-- Words separated by `s` and followed by `s` begin with a letter that is
followed by a rune that is no digit. -/
theorem intercalate_shape (s : Char) (hs : isDigit s = false) (ws : List (List Char))
    (hne : ws ≠ []) (hws : ∀ w ∈ ws, w ≠ [] ∧ ∀ c ∈ w, isLetter c = true) (after : List Char) :
    ∃ a b r, [s].intercalate ws ++ s :: after = a :: b :: r ∧ isLetter a = true ∧
      isDigit b = false := by
  match ws, hne, hws with
  | [], hne, _ => exact absurd rfl hne
  | w :: ws', _, hws =>
    obtain ⟨hw, hwl⟩ := hws w (List.mem_cons_self _ _)
    match w, hw, hwl with
    | [], hw, _ => exact absurd rfl hw
    | [a], _, hwl =>
      refine ⟨a, s, ?_⟩
      cases ws' with
      | nil => exact ⟨after, by simp [List.intercalate, List.intersperse], hwl a (by simp), hs⟩
      | cons w2 ws'' =>
        exact ⟨_, by simp [List.intercalate, List.intersperse]; rfl, hwl a (by simp), hs⟩
    | a :: b :: w', _, hwl =>
      refine ⟨a, b, ?_⟩
      cases ws' with
      | nil =>
        exact ⟨_, by simp [List.intercalate, List.intersperse]; rfl, hwl a (by simp),
          isDigit_of_isLetter (hwl b (by simp))⟩
      | cons w2 ws'' =>
        exact ⟨_, by simp [List.intercalate, List.intersperse]; rfl, hwl a (by simp),
          isDigit_of_isLetter (hwl b (by simp))⟩

/-- From inside a word that is not the last one, or from the separator after
it, `[\w)]+` leads to no match. -/
theorem episodeName_word_fails (K : Thread → List Thread) (s : Char)
    (hwp : isWordOrParen s = false)
    (hK₁ : ∀ pos caps c cs, isLetter c = true → K ⟨pos, c :: cs, caps⟩ = [])
    (hK₂ : ∀ pos caps a b r, isLetter a = true → isDigit b = false →
      K ⟨pos, s :: a :: b :: r, caps⟩ = [])
    (v : List Char) (hv : ∀ c ∈ v, isLetter c = true) (a b : Char) (r : List Char)
    (ha : isLetter a = true) (hb : isDigit b = false) (pos : Nat) (caps : Nat → List Char) :
    ((Regex.plus true (Regex.cls isWordOrParen)).run ⟨pos, v ++ s :: a :: b :: r, caps⟩).flatMap K
      = [] := by
  cases v with
  | nil => simp [Regex.run_plus, Regex.run_cls_cons, hwp]
  | cons c v' =>
    have hc : isWordOrParen c = true := isWordOrParen_of_isLetter (hv c (List.mem_cons_self _ _))
    have hv' : ∀ c ∈ v', isLetter c = true := fun c' hc' => hv c' (List.mem_cons_of_mem _ hc')
    rw [Regex.run_plus, List.cons_append, Regex.run_cls_cons]
    simp only [hc, if_true, List.flatMap_cons, List.flatMap_nil, List.append_nil]
    rw [List.flatMap_eq_nil_iff]
    intro x hx
    obtain ⟨k, -, hall, rfl⟩ := Regex.mem_run_star_cls _ _ _ _ _ _ hx
    have hk : k ≤ v'.length := by
      by_contra hlt
      have hmem : s ∈ (v' ++ s :: a :: b :: r).take k := by
        rw [List.take_append_eq_append_take]
        apply List.mem_append_right
        have : k - v'.length = (k - v'.length - 1) + 1 := by omega
        rw [this, List.take_succ_cons]
        exact List.mem_cons_self _ _
      have := hall s hmem
      rw [hwp] at this
      exact absurd this (by decide)
    rw [List.drop_append_of_le_length hk]
    cases hd : v'.drop k with
    | nil => exact hK₂ _ _ _ _ _ ha hb
    | cons c' cs' =>
      have : c' ∈ v' := (List.drop_subset k v') (by rw [hd]; exact List.mem_cons_self _ _)
      exact hK₁ _ _ _ _ (hv' c' this)

/-- On words separated by `s`, `.*?[\w)]+` followed by a continuation that
fails in front of letters and in front of a separator followed by a word:
the preferred outcome is that of stopping after the last word. -/
theorem episodeName_words (K : Thread → List Thread) (s : Char)
    (hany : isAny s = true) (hwp : isWordOrParen s = false) (hdig : isDigit s = false)
    (hK₁ : ∀ pos caps c cs, isLetter c = true → K ⟨pos, c :: cs, caps⟩ = [])
    (hK₂ : ∀ pos caps a b r, isLetter a = true → isDigit b = false →
      K ⟨pos, s :: a :: b :: r, caps⟩ = [])
    (ws : List (List Char)) (hne : ws ≠ [])
    (hws : ∀ w ∈ ws, w ≠ [] ∧ ∀ c ∈ w, isLetter c = true)
    (after : List Char) (pos : Nat) (caps : Nat → List Char) :
    ∃ more, ((Regex.star false (Regex.cls isAny)).run
        ⟨pos, [s].intercalate ws ++ s :: after, caps⟩).flatMap
          (fun u => ((Regex.plus true (Regex.cls isWordOrParen)).run u).flatMap K) =
      K ⟨pos + ([s].intercalate ws).length, s :: after, caps⟩ ++ more := by
  induction ws generalizing pos with
  | nil => exact absurd rfl hne
  | cons w ws' ih =>
    obtain ⟨hw, hwl⟩ := hws w (List.mem_cons_self _ _)
    cases ws' with
    | nil =>
      obtain ⟨c, w', rfl⟩ := List.exists_cons_of_ne_nil hw
      have hc : isWordOrParen c = true := isWordOrParen_of_isLetter (hwl c (by simp))
      obtain ⟨more₀, h₀⟩ := Regex.run_star_lazy_head isAny
        ⟨pos, [s].intercalate [c :: w'] ++ s :: after, caps⟩
      obtain ⟨more₁, h₁⟩ := Regex.greedy_back isWordOrParen K caps w' [] (s :: after) (pos + 1)
        (fun c' hc' => isWordOrParen_of_isLetter (hwl c' (List.mem_cons_of_mem _ hc')))
        (by simp) (by simp [hwp]) (by
          intro j hj hj'
          simp at hj'
          omega)
      refine ⟨more₁ ++ more₀.flatMap
        (fun u => ((Regex.plus true (Regex.cls isWordOrParen)).run u).flatMap K), ?_⟩
      rw [h₀, List.flatMap_cons]
      have e : [s].intercalate [c :: w'] ++ s :: after = c :: (w' ++ ([] ++ s :: after)) := by
        simp [List.intercalate, List.intersperse]
      have e' : ([s].intercalate [c :: w']).length = 1 + w'.length := by
        simp [List.intercalate, List.intersperse, Nat.add_comm]
      rw [e, Regex.run_plus, Regex.run_cls_cons]
      simp only [hc, if_true, List.flatMap_cons, List.flatMap_nil, List.append_nil]
      rw [h₁, e', List.append_assoc, Nat.add_assoc]
      rfl
    | cons w₂ ws'' =>
      have hws' : ∀ w ∈ w₂ :: ws'', w ≠ [] ∧ ∀ c ∈ w, isLetter c = true :=
        fun w' hw' => hws w' (List.mem_cons_of_mem _ hw')
      obtain ⟨a, b, r, hshape, ha, hb⟩ :=
        intercalate_shape s hdig (w₂ :: ws'') (by simp) hws' after
      have e : [s].intercalate (w :: w₂ :: ws'') ++ s :: after =
          (w ++ [s]) ++ ([s].intercalate (w₂ :: ws'') ++ s :: after) := by
        simp [List.intercalate, List.intersperse]
      have e' : ([s].intercalate (w :: w₂ :: ws'')).length =
          (w ++ [s]).length + ([s].intercalate (w₂ :: ws'')).length := by
        simp [List.intercalate, List.intersperse]
        omega
      obtain ⟨more, hmore⟩ := ih (by simp) hws' (pos + (w ++ [s]).length)
      refine ⟨more, ?_⟩
      rw [e, Regex.lazy_skip isAny _ caps (w ++ [s]) _ pos, hmore, e', Nat.add_assoc]
      · intro c hc
        rw [List.mem_append, List.mem_singleton] at hc
        rcases hc with hc | rfl
        · exact isAny_of_isLetter (hwl c hc)
        · exact hany
      · intro j hj
        rw [hshape]
        have hj' : j ≤ w.length := by
          simp at hj
          omega
        have hd : (w ++ [s]).drop j ++ a :: b :: r = w.drop j ++ s :: a :: b :: r := by
          rw [List.drop_append_of_le_length hj']
          simp
        rw [hd]
        exact episodeName_word_fails K s hwp hK₁ hK₂ (w.drop j)
          (fun c hc => hwl c (List.drop_subset j w hc)) a b r ha hb _ caps

/-- On a name of word runes followed by an underscore and a run of letters and
digits that ends the text, `.*?[\w)]+` first takes the whole text and then
gives way down to the underscore. -/
theorem episodeName_underscore (K : Thread → List Thread)
    (hK₀ : ∀ pos caps, K ⟨pos, [], caps⟩ = [])
    (hK₁ : ∀ pos caps c cs, isNonWordOrUnderscore c = false → K ⟨pos, c :: cs, caps⟩ = [])
    (name body : List Char) (hne : name ≠ [])
    (hname : ∀ c ∈ name, isWordOrParen c = true)
    (hbody : ∀ c ∈ body, isWordOrParen c = true ∧ isNonWordOrUnderscore c = false)
    (pos : Nat) (caps : Nat → List Char) :
    ∃ more, ((Regex.star false (Regex.cls isAny)).run
        ⟨pos, name ++ '_' :: body, caps⟩).flatMap
          (fun u => ((Regex.plus true (Regex.cls isWordOrParen)).run u).flatMap K) =
      K ⟨pos + name.length, '_' :: body, caps⟩ ++ more := by
  obtain ⟨c, n', rfl⟩ := List.exists_cons_of_ne_nil hne
  have hc : isWordOrParen c = true := hname c (by simp)
  obtain ⟨more₀, h₀⟩ := Regex.run_star_lazy_head isAny ⟨pos, c :: n' ++ '_' :: body, caps⟩
  obtain ⟨more₁, h₁⟩ := Regex.greedy_back isWordOrParen K caps n' ('_' :: body) [] (pos + 1)
    (fun c' hc' => hname c' (List.mem_cons_of_mem _ hc'))
    (by
      intro c' hc'
      rw [List.mem_cons] at hc'
      rcases hc' with rfl | hc'
      · decide
      · exact (hbody c' hc').1)
    (by simp) (by
      intro j hj hj'
      obtain ⟨i, rfl⟩ : ∃ i, j = i + 1 := ⟨j - 1, by omega⟩
      simp only [List.drop_succ_cons, List.append_nil]
      cases hd : body.drop i with
      | nil => exact hK₀ _ _
      | cons c' cs' =>
        have : c' ∈ body := (List.drop_subset i body) (by rw [hd]; exact List.mem_cons_self _ _)
        exact hK₁ _ _ _ _ (hbody c' this).2)
  refine ⟨more₁ ++ more₀.flatMap
    (fun u => ((Regex.plus true (Regex.cls isWordOrParen)).run u).flatMap K), ?_⟩
  rw [h₀, List.flatMap_cons, List.cons_append, Regex.run_plus, Regex.run_cls_cons]
  simp only [hc, if_true, List.flatMap_cons, List.flatMap_nil, List.append_nil]
  have e : n' ++ '_' :: body = n' ++ (('_' :: body) ++ []) := by simp
  rw [e, h₁]
  simp [Nat.add_assoc, Nat.add_comm 1]

/-! ### What every thread has consumed -/

/-- Nothing consumed. -/
theorem Consumed.refl (t : Thread) : Consumed t t := ⟨[], by simp, by simp⟩

/-- Consumption composes. -/
theorem Consumed.trans {t u v : Thread} (h₁ : Consumed t u) (h₂ : Consumed u v) :
    Consumed t v := by
  obtain ⟨w₁, e₁, p₁⟩ := h₁
  obtain ⟨w₂, e₂, p₂⟩ := h₂
  exact ⟨w₁ ++ w₂, by rw [e₁, e₂, List.append_assoc], by rw [p₂, p₁, List.length_append]; omega⟩

/-- Every outcome of an iteration has consumed a stretch of the text ahead. -/
theorem Regex.loop_consumed (g : Bool) (step : Thread → List Thread)
    (hstep : ∀ t u, u ∈ step t → Consumed t u) (fuel : Nat) (t u : Thread)
    (hu : u ∈ Regex.loop g step fuel t) : Consumed t u := by
  induction fuel generalizing t with
  | zero =>
    simp only [Regex.loop, List.mem_singleton] at hu
    subst hu
    exact Consumed.refl _
  | succ n ih =>
    have hmore : u ∈ ((step t).filter (fun v => v.rest.length < t.rest.length)).flatMap
        (Regex.loop g step n) → Consumed t u := by
      intro h
      rw [List.mem_flatMap] at h
      obtain ⟨v, hv, huv⟩ := h
      exact (hstep t v (List.mem_filter.1 hv).1).trans (ih v huv)
    cases g with
    | false =>
      simp only [Regex.loop, Bool.false_eq_true, if_false, List.mem_cons] at hu
      rcases hu with rfl | hu
      · exact Consumed.refl _
      · exact hmore hu
    | true =>
      simp only [Regex.loop, if_true, List.mem_append, List.mem_singleton] at hu
      rcases hu with hu | rfl
      · exact hmore hu
      · exact Consumed.refl _

/-- Every outcome of a match has consumed a stretch of the text ahead. -/
theorem Regex.run_consumed (r : Regex) (t u : Thread) (hu : u ∈ r.run t) : Consumed t u := by
  induction r generalizing t u with
  | cls p =>
    obtain ⟨pos, rest, caps⟩ := t
    cases rest with
    | nil => simp [Regex.run_cls_nil] at hu
    | cons c cs =>
      rw [Regex.run_cls_cons] at hu
      by_cases hc : p c = true
      · simp only [hc, if_true, List.mem_singleton] at hu
        subst hu
        exact ⟨[c], rfl, rfl⟩
      · simp [hc] at hu
  | bol =>
    simp only [Regex.run] at hu
    split at hu
    · simp only [List.mem_singleton] at hu
      subst hu
      exact Consumed.refl _
    · simp at hu
  | eol =>
    simp only [Regex.run] at hu
    split at hu
    · simp only [List.mem_singleton] at hu
      subst hu
      exact Consumed.refl _
    · simp at hu
  | seq a b iha ihb =>
    rw [Regex.run_seq, List.mem_flatMap] at hu
    obtain ⟨m, hm, hmu⟩ := hu
    exact (iha t m hm).trans (ihb m u hmu)
  | cap n r ih =>
    rw [Regex.run_cap, List.mem_map] at hu
    obtain ⟨v, hv, rfl⟩ := hu
    exact ih t v hv
  | opt g r ih =>
    rw [Regex.run_opt] at hu
    cases g with
    | false =>
      simp only [Bool.false_eq_true, if_false, List.mem_cons] at hu
      rcases hu with rfl | hu
      · exact Consumed.refl _
      · exact ih t u hu
    | true =>
      simp only [if_true, List.mem_append, List.mem_singleton] at hu
      rcases hu with hu | rfl
      · exact ih t u hu
      · exact Consumed.refl _
  | star g r ih =>
    exact Regex.loop_consumed g (fun v => r.run v) (fun t' u' h => ih t' u' h) _ t u hu

/-- The report of `find` when the pattern matches at the very beginning. -/
theorem Regex.find_of_head (re : Regex) (text : List Char) (u : Thread)
    (h : (re.run ⟨0, text, fun _ => []⟩).head? = some u) :
    re.find 0 text =
      some (text.take u.pos :: (List.range re.numSubexp).map (fun i => u.caps (i + 1))) := by
  cases text with
  | nil => simp [Regex.find, Regex.findAt, h]
  | cons c cs => simp [Regex.find, Regex.findAt, h]

/-- A match that ends at the end of the text and began at its beginning covers
the whole text. -/
theorem Regex.take_pos_of_head (re : Regex) (text : List Char) (u : Thread)
    (h : (re.run ⟨0, text, fun _ => []⟩).head? = some u) (hu : u.rest = []) :
    text.take u.pos = text := by
  obtain ⟨w, e, p⟩ := Regex.run_consumed re _ u (List.mem_of_mem_head? h)
  simp only [hu, List.append_nil] at e
  simp only [Nat.zero_add] at p
  rw [p, ← e, List.take_length]

/-! ### The whole pattern -/

/-- The anchor `^` at the beginning of the text. -/
theorem Regex.run_bol_zero (rest : List Char) (caps : Nat → List Char) :
    Regex.bol.run ⟨0, rest, caps⟩ = [⟨0, rest, caps⟩] := rfl

/-- The pattern from the very beginning of a text, with the capture of group 1
made explicit. -/
theorem episodeRegexp_run (text : List Char) :
    episodeRegexp.run ⟨0, text, fun _ => []⟩ =
      ((Regex.star false (Regex.cls isAny)).run ⟨0, text, fun _ => []⟩).flatMap (fun u =>
        ((Regex.plus true (Regex.cls isWordOrParen)).run u).flatMap (fun v =>
          episodeTail.run
            ⟨v.pos, v.rest, fun i => if i = 1 then text.take (v.pos - 0) else v.caps i⟩)) := by
  rw [episodeRegexp_eq, Regex.run_seq, Regex.run_bol_zero, List.flatMap_cons, List.flatMap_nil,
    List.append_nil, episodeName_run]

/-- The preferred match on words separated by a separator `s` other than the
underscore, followed by `s`, an optional `S`, the season digits, a marker, the
episode digits, an optional second marker with digits, and a remainder that is
empty or begins with a separator. -/
theorem episodeRegexp_head_words (s m : Char) (ws : List (List Char))
    (sOpt ss ee snd more : List Char)
    (hany : isAny s = true) (hwp : isWordOrParen s = false)
    (hs : isNonWordOrUnderscore s = true)
    (hne : ws ≠ []) (hws : ∀ w ∈ ws, w ≠ [] ∧ ∀ c ∈ w, isLetter c = true)
    (hS : sOpt = [] ∨ sOpt = ['S'] ∨ sOpt = ['s'])
    (hssl : ss.length = 1 ∨ ss.length = 2) (hss : ∀ c ∈ ss, isDigit c = true)
    (hm : (m == 'E' || m == 'e' || m == 'x') = true)
    (heel : ee.length = 1 ∨ ee.length = 2) (hee : ∀ c ∈ ee, isDigit c = true)
    (hsnd : snd = [] ∨ ∃ e ds, snd = e :: ds ∧ (e == 'E' || e == 'e') = true ∧
      (ds.length = 1 ∨ ds.length = 2) ∧ ∀ c ∈ ds, isDigit c = true)
    (hmore : ∀ c ∈ more.head?, isNonWordOrUnderscore c = true)
    (hnl : ∀ c ∈ more, isAny c = true) :
    ∃ u, (episodeRegexp.run
        ⟨0, [s].intercalate ws ++ s :: (sOpt ++ (ss ++ (m :: (ee ++ (snd ++ more))))),
          fun _ => []⟩).head? = some u ∧
      u.rest = [] ∧ u.caps 1 = [s].intercalate ws ∧ u.caps 2 = ss ∧ u.caps 3 = ee ∧
      u.caps 4 = more.dropWhile isNonWordOrUnderscore := by
  obtain ⟨rest, hname⟩ := episodeName_words
    (fun v => episodeTail.run ⟨v.pos, v.rest, fun i =>
      if i = 1 then
        ([s].intercalate ws ++ s :: (sOpt ++ (ss ++ (m :: (ee ++ (snd ++ more)))))).take (v.pos - 0)
      else v.caps i⟩)
    s hany hwp (isDigit_of_isNonWordOrUnderscore hs)
    (fun pos caps c cs hc => episodeTail_nonsep _ _ c cs (isNonWordOrUnderscore_of_isLetter hc))
    (fun pos caps a b r ha hb => episodeTail_sep_word _ _ s a b r ha hb)
    ws hne hws (sOpt ++ (ss ++ (m :: (ee ++ (snd ++ more))))) 0 (fun _ => [])
  obtain ⟨u, hu, hrest, h1, h2, h3, h4⟩ := episodeTail_head (0 + ([s].intercalate ws).length)
    (fun i => if i = 1 then
        ([s].intercalate ws ++ s :: (sOpt ++ (ss ++ (m :: (ee ++ (snd ++ more)))))).take
          (0 + ([s].intercalate ws).length - 0)
      else []) s m sOpt ss ee snd more hs hS hssl hss hm heel hee hsnd hmore hnl
  refine ⟨u, ?_, hrest, ?_, h2, h3, h4⟩
  · rw [episodeRegexp_run, hname]
    exact head?_append_head _ _ _ hu
  · rw [h1]
    simp

/-- The preferred match on a name of word runes followed by an underscore, an
optional `S`, the season digits, a marker, the episode digits and an optional
second marker with digits, at the end of the text. -/
theorem episodeRegexp_head_underscore (m : Char) (name sOpt ss ee snd : List Char)
    (hne : name ≠ []) (hname : ∀ c ∈ name, isWordOrParen c = true)
    (hS : sOpt = [] ∨ sOpt = ['S'] ∨ sOpt = ['s'])
    (hssl : ss.length = 1 ∨ ss.length = 2) (hss : ∀ c ∈ ss, isDigit c = true)
    (hm : (m == 'E' || m == 'e' || m == 'x') = true)
    (heel : ee.length = 1 ∨ ee.length = 2) (hee : ∀ c ∈ ee, isDigit c = true)
    (hsnd : snd = [] ∨ ∃ e ds, snd = e :: ds ∧ (e == 'E' || e == 'e') = true ∧
      (ds.length = 1 ∨ ds.length = 2) ∧ ∀ c ∈ ds, isDigit c = true) :
    ∃ u, (episodeRegexp.run
        ⟨0, name ++ '_' :: (sOpt ++ (ss ++ (m :: (ee ++ (snd ++ []))))), fun _ => []⟩).head?
          = some u ∧
      u.rest = [] ∧ u.caps 1 = name ∧ u.caps 2 = ss ∧ u.caps 3 = ee ∧ u.caps 4 = [] := by
  have hdig : ∀ c, isDigit c = true → isWordOrParen c = true ∧ isNonWordOrUnderscore c = false :=
    fun c hc => ⟨isWordOrParen_of_isDigit hc, isNonWordOrUnderscore_of_isDigit hc⟩
  have hbody : ∀ c ∈ sOpt ++ (ss ++ (m :: (ee ++ (snd ++ [])))),
      isWordOrParen c = true ∧ isNonWordOrUnderscore c = false := by
    intro c hc
    simp only [List.mem_append, List.mem_cons, List.not_mem_nil, or_false] at hc
    rcases hc with hc | hc | hc | hc | hc
    · rcases hS with rfl | rfl | rfl
      · simp at hc
      · simp only [List.mem_singleton] at hc
        subst hc
        decide
      · simp only [List.mem_singleton] at hc
        subst hc
        decide
    · exact hdig c (hss c hc)
    · subst hc
      simp only [Bool.or_eq_true, beq_iff_eq] at hm
      rcases hm with (rfl | rfl) | rfl <;> decide
    · exact hdig c (hee c hc)
    · rcases hsnd with rfl | ⟨e, ds, rfl, he, -, hds⟩
      · simp at hc
      · rw [List.mem_cons] at hc
        rcases hc with rfl | hc
        · simp only [Bool.or_eq_true, beq_iff_eq] at he
          rcases he with rfl | rfl <;> decide
        · exact hdig c (hds c hc)
  obtain ⟨rest, hrun⟩ := episodeName_underscore
    (fun v => episodeTail.run ⟨v.pos, v.rest, fun i =>
      if i = 1 then
        (name ++ '_' :: (sOpt ++ (ss ++ (m :: (ee ++ (snd ++ [])))))).take (v.pos - 0)
      else v.caps i⟩)
    (fun pos caps => episodeTail_nil _ _)
    (fun pos caps c cs hc => episodeTail_nonsep _ _ c cs hc)
    name (sOpt ++ (ss ++ (m :: (ee ++ (snd ++ []))))) hne hname hbody 0 (fun _ => [])
  obtain ⟨u, hu, hrest, h1, h2, h3, h4⟩ := episodeTail_head (0 + name.length)
    (fun i => if i = 1 then
        (name ++ '_' :: (sOpt ++ (ss ++ (m :: (ee ++ (snd ++ [])))))).take (0 + name.length - 0)
      else []) '_' m sOpt ss ee snd [] (by decide) hS hssl hss hm heel hee hsnd (by simp) (by simp)
  refine ⟨u, ?_, hrest, ?_, h2, h3, by simpa using h4⟩
  · rw [episodeRegexp_run, hrun]
    exact head?_append_head _ _ _ hu
  · rw [h1]
    simp

/-! ### From the match to the episode -/

/-- The report of `FindStringSubmatch` for `episodeRegexp` when the preferred
match from the beginning ends at the end of the text. -/
theorem FindStringSubmatch_of_head (text : List Char) (u : Thread)
    (h : (episodeRegexp.run ⟨0, text, fun _ => []⟩).head? = some u) (hu : u.rest = []) :
    FindStringSubmatch episodeRegexp (String.mk text) =
      some [String.mk text, String.mk (u.caps 1), String.mk (u.caps 2), String.mk (u.caps 3),
        String.mk (u.caps 4)] := by
  have hn : episodeRegexp.numSubexp = 4 := rfl
  show Option.map (fun m => List.map String.mk m) (episodeRegexp.find 0 text) = _
  rw [Regex.find_of_head _ _ u h, Regex.take_pos_of_head _ _ u h hu, hn]
  rfl

/-- The value of one or two digits is below one hundred. -/
theorem decimal_lt (ds : List Char) (hl : ds.length = 1 ∨ ds.length = 2)
    (hd : ∀ c ∈ ds, isDigit c = true) : decimal ds < 100 := by
  have h0 : '0'.toNat = 48 := rfl
  match ds, hl, hd with
  | [a], _, hd =>
    have ha := (isDigit_iff a).1 (hd a (by simp))
    simp only [decimal, List.foldl_cons, List.foldl_nil, h0]
    omega
  | [a, b], _, hd =>
    have ha := (isDigit_iff a).1 (hd a (by simp))
    have hb := (isDigit_iff b).1 (hd b (by simp))
    simp only [decimal, List.foldl_cons, List.foldl_nil, h0]
    omega
  | [], h, _ => simp at h
  | _ :: _ :: _ :: _, h, _ => simp at h

/-- Function `strconv.Atoi` on one or two digits. -/
theorem Atoi_digits (ds : List Char) (hl : ds.length = 1 ∨ ds.length = 2)
    (hd : ∀ c ∈ ds, isDigit c = true) : Atoi (String.mk ds) = Except.ok (decimal ds : Int) := by
  have hlt : decimal ds < 2 ^ 63 := lt_trans (decimal_lt ds hl hd) (by norm_num)
  obtain ⟨a, as, rfl⟩ := List.exists_cons_of_ne_nil (ne_nil_of_length_12 hl)
  have ha := hd a (List.mem_cons_self _ _)
  have h1 : a ≠ '-' := by
    rintro rfl
    exact absurd ha (by decide)
  have h2 : a ≠ '+' := by
    rintro rfl
    exact absurd ha (by decide)
  have hall : (a :: as).all isDigit = true := by
    rw [List.all_eq_true]
    exact hd
  have hbody : (match (String.mk (a :: as)).toList with
      | '-' :: ds => (true, ds)
      | '+' :: ds => (false, ds)
      | ds => (false, ds)) = (false, a :: as) := by
    show (match a :: as with
      | '-' :: ds => (true, ds)
      | '+' :: ds => (false, ds)
      | ds => (false, ds)) = (false, a :: as)
    split
    · next h => exact absurd (List.cons.inj h).1 h1
    · next h => exact absurd (List.cons.inj h).1 h2
    · rfl
  simp only [Atoi, hbody, hall, List.isEmpty_cons, Bool.false_or, Bool.not_true,
    Bool.false_eq_true, if_false, hlt, if_true]

/-- The episode that `NewEpisode` builds from the preferred match. -/
theorem NewEpisode_of_head (d : Deps) (text : List Char) (u : Thread)
    (h : (episodeRegexp.run ⟨0, text, fun _ => []⟩).head? = some u) (hu : u.rest = [])
    (h2l : (u.caps 2).length = 1 ∨ (u.caps 2).length = 2)
    (h2 : ∀ c ∈ u.caps 2, isDigit c = true)
    (h3l : (u.caps 3).length = 1 ∨ (u.caps 3).length = 2)
    (h3 : ∀ c ∈ u.caps 3, isDigit c = true)
    (hidx : 0 ≤ (d.ParseMetadataIndex (String.mk (u.caps 4))).1 ∧
      (d.ParseMetadataIndex (String.mk (u.caps 4))).1 ≤ ((String.mk (u.caps 4)).utf8ByteSize : Int)) :
    NewEpisode d (String.mk text) = Outcome.ok
      { toMetadata := (d.ParseMetadataIndex (String.mk (u.caps 4))).2
        NameX := d.CleanName (String.mk (u.caps 1))
        EpisodeX := (decimal (u.caps 3) : Int)
        SeasonX := (decimal (u.caps 2) : Int)
        EpisodeNameX := d.CleanName (String.mk (takeBytes (u.caps 4)
          (d.ParseMetadataIndex (String.mk (u.caps 4))).1.toNat)) } := by
  simp only [NewEpisode, FindStringSubmatch_of_head text u h hu, List.getD_cons_succ,
    List.getD_cons_zero, Atoi_digits _ h2l h2, Atoi_digits _ h3l h3, sliceTo, hidx, and_self,
    if_true]
  rfl

/-! ### Strings and lists of runes -/

/-- The runes of the accumulating loop of `String.intercalate`. -/
theorem intercalate_go_data (s : String) (ws : List String) (acc : String) :
    (String.intercalate.go acc s ws).data =
      acc.data ++ (ws.map (fun w => s.data ++ w.data)).flatten := by
  induction ws generalizing acc with
  | nil => simp [String.intercalate.go]
  | cons w ws ih => simp [String.intercalate.go, ih, String.data_append]

/-- Joining a list that is not empty: the head, then every other entry after a separator. -/
theorem list_intercalate_cons {α : Type} (sep a : List α) (as : List (List α)) :
    sep.intercalate (a :: as) = a ++ (as.map (fun w => sep ++ w)).flatten := by
  induction as generalizing a with
  | nil => simp [List.intercalate, List.intersperse]
  | cons b bs ih =>
    have := ih b
    simp only [List.intercalate, List.intersperse] at this ⊢
    simp [this]

/-- The runes of `String.intercalate`. -/
theorem intercalate_data (s : String) (ws : List String) :
    (s.intercalate ws).data = s.data.intercalate (ws.map String.data) := by
  cases ws with
  | nil => rfl
  | cons a as =>
    rw [String.intercalate, intercalate_go_data, List.map_cons, list_intercalate_cons,
      List.map_map]
    rfl

/-- Alphabetic words as lists of runes. -/
theorem words_data (ws : List String)
    (hws : ∀ w ∈ ws, w ≠ "" ∧ ∀ c ∈ w.toList, isLetter c = true) :
    ∀ w ∈ ws.map String.data, w ≠ [] ∧ ∀ c ∈ w, isLetter c = true := by
  intro w hw
  rw [List.mem_map] at hw
  obtain ⟨w', hw', rfl⟩ := hw
  refine ⟨?_, (hws w' hw').2⟩
  intro h
  exact (hws w' hw').1 (String.ext h)

/-! ### The parser on well-formed names -/

/-- Function `NewEpisode` on words separated by a separator `s` other than the
underscore, followed by `s`, an optional `S`, the season digits, a marker, the
episode digits, an optional second marker with digits, and a remainder that is
empty or begins with a separator. -/
theorem NewEpisode_words (d : Deps) (s m : Char) (ws : List String)
    (sOpt ss ee snd more : String)
    (hany : isAny s = true) (hwp : isWordOrParen s = false)
    (hs : isNonWordOrUnderscore s = true) (hws : AlphabeticWords ws)
    (hS : sOpt = "" ∨ sOpt = "S" ∨ sOpt = "s")
    (hss : OneOrTwoDigits ss) (hm : (m == 'E' || m == 'e' || m == 'x') = true)
    (hee : OneOrTwoDigits ee)
    (hsnd : snd = "" ∨ ∃ e ds, snd = String.singleton e ++ ds ∧ (e == 'E' || e == 'e') = true ∧
      OneOrTwoDigits ds)
    (hmore : ∀ c ∈ more.toList.head?, isNonWordOrUnderscore c = true)
    (hnl : ∀ c ∈ more.toList, isAny c = true)
    (hidx : BoundaryInRange d (String.mk (more.toList.dropWhile isNonWordOrUnderscore))) :
    NewEpisode d ((String.singleton s).intercalate ws ++ String.singleton s ++ sOpt ++ ss ++
        String.singleton m ++ ee ++ snd ++ more) = Outcome.ok
      { toMetadata :=
          (d.ParseMetadataIndex (String.mk (more.toList.dropWhile isNonWordOrUnderscore))).2
        NameX := d.CleanName ((String.singleton s).intercalate ws)
        EpisodeX := (decimal ee.toList : Int)
        SeasonX := (decimal ss.toList : Int)
        EpisodeNameX := d.CleanName (String.mk
          (takeBytes (more.toList.dropWhile isNonWordOrUnderscore)
            (d.ParseMetadataIndex
              (String.mk (more.toList.dropWhile isNonWordOrUnderscore))).1.toNat)) } := by
  have hS' : sOpt.data = [] ∨ sOpt.data = ['S'] ∨ sOpt.data = ['s'] := by
    rcases hS with rfl | rfl | rfl
    · exact Or.inl rfl
    · exact Or.inr (Or.inl rfl)
    · exact Or.inr (Or.inr rfl)
  have hsnd' : snd.data = [] ∨ ∃ e ds, snd.data = e :: ds ∧ (e == 'E' || e == 'e') = true ∧
      (ds.length = 1 ∨ ds.length = 2) ∧ ∀ c ∈ ds, isDigit c = true := by
    rcases hsnd with rfl | ⟨e, ds, rfl, he, hds⟩
    · exact Or.inl rfl
    · exact Or.inr ⟨e, ds.data, rfl, he, hds⟩
  obtain ⟨u, hu, hrest, h1, h2, h3, h4⟩ := episodeRegexp_head_words s m (ws.map String.data)
    sOpt.data ss.data ee.data snd.data more.data hany hwp hs (by simpa using hws.1)
    (words_data ws hws.2) hS' hss.1 hss.2 hm hee.1 hee.2 hsnd' hmore hnl
  have htext : (String.singleton s).intercalate ws ++ String.singleton s ++ sOpt ++ ss ++
      String.singleton m ++ ee ++ snd ++ more =
      String.mk ([s].intercalate (ws.map String.data) ++
        s :: (sOpt.data ++ (ss.data ++ (m :: (ee.data ++ (snd.data ++ more.data)))))) := by
    apply String.ext
    simp only [String.data_append, intercalate_data, String.singleton, List.append_assoc]
    rfl
  have hname : (String.singleton s).intercalate ws =
      String.mk ([s].intercalate (ws.map String.data)) := by
    apply String.ext
    rw [intercalate_data]
    rfl
  have := NewEpisode_of_head d _ u hu hrest (by rw [h2]; exact hss.1) (by rw [h2]; exact hss.2)
    (by rw [h3]; exact hee.1) (by rw [h3]; exact hee.2) (by rw [h4]; exact hidx)
  rw [htext, this, h1, h2, h3, h4, hname]
  rfl

/-- Function `NewEpisode` on a name of word runes followed by an underscore, an optional
`S`, the season digits, a marker, the episode digits and an optional second
marker with digits. -/
theorem NewEpisode_underscore (d : Deps) (m : Char) (name sOpt ss ee snd : String)
    (hne : name ≠ "") (hname : ∀ c ∈ name.toList, isWordOrParen c = true)
    (hS : sOpt = "" ∨ sOpt = "S" ∨ sOpt = "s")
    (hss : OneOrTwoDigits ss) (hm : (m == 'E' || m == 'e' || m == 'x') = true)
    (hee : OneOrTwoDigits ee)
    (hsnd : snd = "" ∨ ∃ e ds, snd = String.singleton e ++ ds ∧ (e == 'E' || e == 'e') = true ∧
      OneOrTwoDigits ds)
    (hidx : BoundaryInRange d "") :
    NewEpisode d (name ++ "_" ++ sOpt ++ ss ++ String.singleton m ++ ee ++ snd) = Outcome.ok
      { toMetadata := (d.ParseMetadataIndex "").2
        NameX := d.CleanName name
        EpisodeX := (decimal ee.toList : Int)
        SeasonX := (decimal ss.toList : Int)
        EpisodeNameX := d.CleanName "" } := by
  have hS' : sOpt.data = [] ∨ sOpt.data = ['S'] ∨ sOpt.data = ['s'] := by
    rcases hS with rfl | rfl | rfl
    · exact Or.inl rfl
    · exact Or.inr (Or.inl rfl)
    · exact Or.inr (Or.inr rfl)
  have hsnd' : snd.data = [] ∨ ∃ e ds, snd.data = e :: ds ∧ (e == 'E' || e == 'e') = true ∧
      (ds.length = 1 ∨ ds.length = 2) ∧ ∀ c ∈ ds, isDigit c = true := by
    rcases hsnd with rfl | ⟨e, ds, rfl, he, hds⟩
    · exact Or.inl rfl
    · exact Or.inr ⟨e, ds.data, rfl, he, hds⟩
  obtain ⟨u, hu, hrest, h1, h2, h3, h4⟩ := episodeRegexp_head_underscore m name.data
    sOpt.data ss.data ee.data snd.data (fun h => hne (String.ext h)) hname hS' hss.1 hss.2 hm
    hee.1 hee.2 hsnd'
  have htext : name ++ "_" ++ sOpt ++ ss ++ String.singleton m ++ ee ++ snd =
      String.mk (name.data ++
        '_' :: (sOpt.data ++ (ss.data ++ (m :: (ee.data ++ (snd.data ++ [])))))) := by
    apply String.ext
    simp only [String.data_append, String.singleton, List.append_assoc, List.append_nil]
    rfl
  have := NewEpisode_of_head d _ u hu hrest (by rw [h2]; exact hss.1) (by rw [h2]; exact hss.2)
    (by rw [h3]; exact hee.1) (by rw [h3]; exact hee.2) (by rw [h4]; exact hidx)
  rw [htext, this, h1, h2, h3, h4]
  rfl

/-! ### The name normalizer of the specification on separated words -/

/-- A letter is no separator of the normalizer. -/
theorem parse.isSeparator_of_isLetter {c : Char} (h : isLetter c = true) :
    parse.isSeparator c = false := by
  have h1 : c ≠ '.' := by
    rintro rfl
    exact absurd h (by decide)
  have h2 : c ≠ '_' := by
    rintro rfl
    exact absurd h (by decide)
  have h3 : c ≠ '-' := by
    rintro rfl
    exact absurd h (by decide)
  have h4 : c ≠ ' ' := by
    rintro rfl
    exact absurd h (by decide)
  simp [parse.isSeparator, h1, h2, h3, h4]

/-- The normalizer reads a run of letters into the current word. -/
theorem parse.words_append (w : List Char) (hw : ∀ c ∈ w, isLetter c = true)
    (cur rest : List Char) : parse.words cur (w ++ rest) = parse.words (cur ++ w) rest := by
  induction w generalizing cur with
  | nil => simp
  | cons c cs ih =>
    have hc := parse.isSeparator_of_isLetter (hw c (List.mem_cons_self _ _))
    rw [List.cons_append, parse.words]
    simp only [hc, Bool.false_eq_true, if_false]
    rw [ih (fun c' hc' => hw c' (List.mem_cons_of_mem _ hc'))]
    simp

/-- The normalizer finds the words again, whatever separator joins them. -/
theorem parse.words_intercalate (s : Char) (hs : parse.isSeparator s = true)
    (ws : List (List Char)) (hws : ∀ w ∈ ws, w ≠ [] ∧ ∀ c ∈ w, isLetter c = true) :
    parse.words [] ([s].intercalate ws) = ws := by
  induction ws with
  | nil => rfl
  | cons w ws' ih =>
    obtain ⟨hw, hwl⟩ := hws w (List.mem_cons_self _ _)
    cases ws' with
    | nil =>
      have e : [s].intercalate [w] = w ++ [] := by simp [List.intercalate, List.intersperse]
      rw [e, parse.words_append w hwl]
      simp [parse.words, hw]
    | cons w₂ ws'' =>
      have e : [s].intercalate (w :: w₂ :: ws'') = w ++ s :: [s].intercalate (w₂ :: ws'') := by
        simp [List.intercalate, List.intersperse]
      rw [e, parse.words_append w hwl, parse.words]
      simp only [hs, if_true, List.nil_append, hw, if_false]
      rw [ih (fun w' hw' => hws w' (List.mem_cons_of_mem _ hw'))]

/-- The normalized name of words joined by a separator is the words joined by
single spaces. -/
theorem parse.CleanName_intercalate (s : Char) (hs : parse.isSeparator s = true)
    (ws : List String) (hws : AlphabeticWords ws) :
    parse.CleanName ((String.singleton s).intercalate ws) = " ".intercalate ws := by
  apply String.ext
  rw [parse.CleanName, intercalate_data]
  show [' '].intercalate (parse.words [] ((String.singleton s).intercalate ws).data) = _
  rw [intercalate_data]
  show [' '].intercalate (parse.words [] ([s].intercalate (ws.map String.data))) = _
  rw [parse.words_intercalate s hs _ (words_data ws hws.2)]

/-- A rune of joined words is the separator or a rune of a word. -/
theorem mem_intercalate {s c : Char} {ws : List (List Char)} (h : c ∈ [s].intercalate ws) :
    c = s ∨ ∃ w ∈ ws, c ∈ w := by
  cases ws with
  | nil => simp [List.intercalate] at h
  | cons a as =>
    rw [list_intercalate_cons] at h
    simp only [List.mem_append, List.mem_flatten, List.mem_map] at h
    rcases h with h | ⟨l, ⟨w, hw, rfl⟩, hc⟩
    · exact Or.inr ⟨a, List.mem_cons_self _ _, h⟩
    · simp only [List.singleton_append, List.mem_cons] at hc
      rcases hc with rfl | hc
      · exact Or.inl rfl
      · exact Or.inr ⟨w, List.mem_cons_of_mem _ hw, hc⟩

/-- Function `NewEpisode` on words joined by a separator of the normalizer (dot,
underscore, hyphen or space), followed by the separator, `S`, the season
digits, `E` and the episode digits. -/
theorem NewEpisode_separated (d : Deps) (s : Char) (hs : parse.isSeparator s = true)
    (ws : List String) (ss ee : String) (hws : AlphabeticWords ws)
    (hss : OneOrTwoDigits ss) (hee : OneOrTwoDigits ee) (hidx : BoundaryInRange d "") :
    NewEpisode d ((String.singleton s).intercalate ws ++ String.singleton s ++ "S" ++ ss ++ "E" ++ ee)
      = Outcome.ok
        { toMetadata := (d.ParseMetadataIndex "").2
          NameX := d.CleanName ((String.singleton s).intercalate ws)
          EpisodeX := (decimal ee.toList : Int)
          SeasonX := (decimal ss.toList : Int)
          EpisodeNameX := d.CleanName "" } := by
  have words : ∀ s' : Char, isAny s' = true → isWordOrParen s' = false →
      isNonWordOrUnderscore s' = true →
      NewEpisode d ((String.singleton s').intercalate ws ++ String.singleton s' ++ "S" ++ ss ++
          "E" ++ ee) = Outcome.ok
        { toMetadata := (d.ParseMetadataIndex "").2
          NameX := d.CleanName ((String.singleton s').intercalate ws)
          EpisodeX := (decimal ee.toList : Int)
          SeasonX := (decimal ss.toList : Int)
          EpisodeNameX := d.CleanName "" } := by
    intro s' h₁ h₂ h₃
    have h := NewEpisode_words d s' 'E' ws "S" ss ee "" "" h₁ h₂ h₃ hws (Or.inr (Or.inl rfl))
      hss (by decide) hee (Or.inl rfl) (by simp) (by simp) hidx
    have e : (String.singleton s').intercalate ws ++ String.singleton s' ++ "S" ++ ss ++ "E" ++ ee =
        (String.singleton s').intercalate ws ++ String.singleton s' ++ "S" ++ ss ++
          String.singleton 'E' ++ ee ++ "" ++ "" := by
      have e₀ : String.singleton 'E' = "E" := rfl
      rw [e₀]
      apply String.ext
      simp [String.data_append]
    rw [e, h]
    rfl
  simp only [parse.isSeparator, Bool.or_eq_true, beq_iff_eq] at hs
  rcases hs with ((rfl | rfl) | rfl) | rfl
  · exact words '.' (by decide) (by decide) (by decide)
  · have hne : (String.singleton '_').intercalate ws ≠ "" := by
      intro h
      have h' := congrArg String.data h
      rw [intercalate_data] at h'
      obtain ⟨a, b, r, hshape, -⟩ := intercalate_shape '_' (by decide) (ws.map String.data)
        (by simpa using hws.1) (words_data ws hws.2) []
      have h'' : (String.singleton '_').data.intercalate (ws.map String.data) = [] := h'
      have e₀ : (String.singleton '_').data = ['_'] := rfl
      rw [e₀] at h''
      rw [h''] at hshape
      simp at hshape
    have hname : ∀ c ∈ ((String.singleton '_').intercalate ws).toList,
        isWordOrParen c = true := by
      intro c hc
      have hc' : c ∈ ['_'].intercalate (ws.map String.data) := by
        have := intercalate_data (String.singleton '_') ws
        rw [String.toList, this] at hc
        exact hc
      rcases mem_intercalate hc' with rfl | ⟨w, hw, hcw⟩
      · decide
      · exact isWordOrParen_of_isLetter ((words_data ws hws.2 w hw).2 c hcw)
    have h := NewEpisode_underscore d 'E' ((String.singleton '_').intercalate ws) "S" ss ee ""
      hne hname (Or.inr (Or.inl rfl)) hss (by decide) hee (Or.inl rfl) hidx
    have e : (String.singleton '_').intercalate ws ++ String.singleton '_' ++ "S" ++ ss ++ "E" ++ ee =
        (String.singleton '_').intercalate ws ++ "_" ++ "S" ++ ss ++
          String.singleton 'E' ++ ee ++ "" := by
      have e₀ : String.singleton 'E' = "E" := rfl
      have e₁ : String.singleton '_' = "_" := rfl
      rw [e₀, e₁]
      apply String.ext
      simp [String.data_append]
    rw [e, h]
  · exact words '-' (by decide) (by decide) (by decide)
  · exact words ' ' (by decide) (by decide) (by decide)

/-- With the name normalizer of the specification for `parse.CleanName`, two
file names `N<sep>S<s>E<e>` of words of ASCII letters that differ only in the
separator (dot, underscore, hyphen or space) and in the padding of numbers
written with one or two digits yield the show name of the words joined by
spaces and the same identity. -/
theorem NewEpisode_stable_of_spec_normalizer (d : Deps) (ws : List String) (s₁ s₂ : Char)
    (ss₁ ee₁ ss₂ ee₂ : String)
    (hclean : ∀ name, d.CleanName name = parse.CleanName name)
    (hidx : BoundaryInRange d "")
    (hws : AlphabeticWords ws)
    (hs₁ : parse.isSeparator s₁ = true) (hs₂ : parse.isSeparator s₂ = true)
    (hss₁ : OneOrTwoDigits ss₁) (hee₁ : OneOrTwoDigits ee₁)
    (hss₂ : OneOrTwoDigits ss₂) (hee₂ : OneOrTwoDigits ee₂)
    (hss : decimal ss₁.toList = decimal ss₂.toList)
    (hee : decimal ee₁.toList = decimal ee₂.toList) :
    ∃ a b,
      NewEpisode d ((String.singleton s₁).intercalate ws ++ String.singleton s₁ ++ "S" ++ ss₁ ++
        "E" ++ ee₁) = Outcome.ok a ∧
      NewEpisode d ((String.singleton s₂).intercalate ws ++ String.singleton s₂ ++ "S" ++ ss₂ ++
        "E" ++ ee₂) = Outcome.ok b ∧
      a.TVShow = " ".intercalate ws ∧ b.TVShow = " ".intercalate ws ∧
      a.Season = b.Season ∧ a.EpisodeNumber = b.EpisodeNumber ∧
      a.Identity d = b.Identity d := by
  refine ⟨_, _, NewEpisode_separated d s₁ hs₁ ws ss₁ ee₁ hws hss₁ hee₁ hidx,
    NewEpisode_separated d s₂ hs₂ ws ss₂ ee₂ hws hss₂ hee₂ hidx, ?_, ?_, ?_, ?_, ?_⟩
  · exact (hclean _).trans (parse.CleanName_intercalate s₁ hs₁ ws hws)
  · exact (hclean _).trans (parse.CleanName_intercalate s₂ hs₂ ws hws)
  · show ((decimal ss₁.toList : Nat) : Int) = (decimal ss₂.toList : Nat)
    rw [hss]
  · show ((decimal ee₁.toList : Nat) : Int) = (decimal ee₂.toList : Nat)
    rw [hee]
  · simp only [Episode.Identity, Episode.TVShow, Episode.Season, Episode.EpisodeNumber, hss, hee,
      hclean, parse.CleanName_intercalate s₁ hs₁ ws hws, parse.CleanName_intercalate s₂ hs₂ ws hws]

/-- C7 (as stated, refuted): the file name `Show.Name.S01E02.` followed by the
tags `Tag1`, a line feed, `Tag2` has the form of the claim, and `NewEpisode`
returns an error for it: `.` does not match a line feed and `$` matches only
at the end of the text. -/
theorem C7_line_feed_in_tags_fails :
    AlphabeticWords ["Show", "Name"] ∧ DigitsOfLength 2 "01" ∧ DigitsOfLength 2 "02" ∧
      NewEpisode specDeps
        (".".intercalate ["Show", "Name"] ++ ".S" ++ "01" ++ "E" ++ "02" ++ "." ++ "Tag1\nTag2")
        = Outcome.error "could not parse episode" := by
  decide

/-- C7 (amended): for every file name `N.SssEee.tags`, where `N` is one or
more words of ASCII letters separated by dots, `ss` and `ee` are two decimal
digits each and `tags` holds no line feed, `NewEpisode` returns an episode
whose season is the value of `ss`, whose episode number is the value of `ee`
and whose show name is `parse.CleanName(N)`, provided the boundary that
`ParseMetadataIndex` returns lies within the tags. -/
theorem C7_NewEpisode_dotted (d : Deps) (ws : List String) (ss ee tags : String)
    (hws : AlphabeticWords ws) (hss : DigitsOfLength 2 ss) (hee : DigitsOfLength 2 ee)
    (htags : ∀ c ∈ tags.toList, c ≠ '\n') (hidx : ∀ t, BoundaryInRange d t) :
    ∃ e, NewEpisode d (".".intercalate ws ++ ".S" ++ ss ++ "E" ++ ee ++ "." ++ tags)
        = Outcome.ok e ∧
      e.Season = (decimal ss.toList : Int) ∧ e.EpisodeNumber = (decimal ee.toList : Int) ∧
      e.TVShow = d.CleanName (".".intercalate ws) := by
  have h := NewEpisode_words d '.' 'E' ws "S" ss ee "" ("." ++ tags) (by decide) (by decide)
    (by decide) hws (Or.inr (Or.inl rfl)) ⟨Or.inr hss.1, hss.2⟩ (by decide)
    ⟨Or.inr hee.1, hee.2⟩ (Or.inl rfl)
    (by
      intro c hc
      have : c = '.' := by simpa [String.data_append] using hc.symm
      subst this
      decide)
    (by
      intro c hc
      have hc' : c = '.' ∨ c ∈ tags.data := by simpa [String.data_append] using hc
      rcases hc' with rfl | hc'
      · decide
      · simpa [isAny] using htags c hc')
    (hidx _)
  have e : ".".intercalate ws ++ ".S" ++ ss ++ "E" ++ ee ++ "." ++ tags =
      (String.singleton '.').intercalate ws ++ String.singleton '.' ++ "S" ++ ss ++
        String.singleton 'E' ++ ee ++ "" ++ ("." ++ tags) := by
    apply String.ext
    simp only [String.data_append, List.append_assoc]
    rfl
  rw [e, h]
  exact ⟨_, rfl, rfl, rfl, rfl⟩

/-- C7 (amended), instance: `Show.Name.S01E02.Tag1.Tag2` yields the show
"Show Name", season 1, episode 2. -/
theorem C7_NewEpisode_dotted_witness :
    (AlphabeticWords ["Show", "Name"] ∧ DigitsOfLength 2 "01" ∧ DigitsOfLength 2 "02" ∧
      (∀ c ∈ "Tag1.Tag2".toList, c ≠ '\n') ∧ ∀ t, BoundaryInRange specDeps t) ∧
    (∃ e, NewEpisode specDeps
          (".".intercalate ["Show", "Name"] ++ ".S" ++ "01" ++ "E" ++ "02" ++ "." ++ "Tag1.Tag2")
          = Outcome.ok e ∧
        e.Season = (decimal "01".toList : Int) ∧ e.EpisodeNumber = (decimal "02".toList : Int) ∧
        e.TVShow = specDeps.CleanName (".".intercalate ["Show", "Name"])) ∧
    NewEpisode specDeps "Show.Name.S01E02.Tag1.Tag2" =
      Outcome.ok ⟨Metadata.none, "Show Name", "Tag1 Tag2", 2, 1⟩ :=
  ⟨⟨by decide, by decide, by decide, by decide, fun _ => ⟨Int.natCast_nonneg _, le_refl _⟩⟩,
    C7_NewEpisode_dotted specDeps ["Show", "Name"] "01" "02" "Tag1.Tag2" (by decide) (by decide)
      (by decide) (by decide) (fun _ => ⟨Int.natCast_nonneg _, le_refl _⟩),
    by decide⟩

/-- C8 (as stated, refuted): with the marker `X` the file name `Show.Name.1X02`
is not recognised; the class of markers in the pattern is `[Eex]`. -/
theorem C8_upper_case_x_fails :
    AlphabeticWords ["Show", "Name"] ∧ OneOrTwoDigits "1" ∧ OneOrTwoDigits "02" ∧
      NewEpisode specDeps (".".intercalate ["Show", "Name"] ++ "." ++ "1" ++ "X" ++ "02")
        = Outcome.error "could not parse episode" := by
  decide

/-- C8 (amended): the parser accepts each of the three episode markers `E`,
`e` and `x`: for every name `N` of words of ASCII letters separated by dots,
every season `s` and episode `e` of one or two digits, `NewEpisode(N.sme)`
returns the same episode for each of the three markers `m`, with season `s`
and episode `e`, provided the boundary that `ParseMetadataIndex` returns for
the empty tags is in range. -/
theorem C8_NewEpisode_markers (d : Deps) (ws : List String) (ss ee : String)
    (hws : AlphabeticWords ws) (hss : OneOrTwoDigits ss) (hee : OneOrTwoDigits ee)
    (hidx : BoundaryInRange d "") :
    ∃ e, (∀ m ∈ ['E', 'e', 'x'],
        NewEpisode d (".".intercalate ws ++ "." ++ ss ++ String.singleton m ++ ee)
          = Outcome.ok e) ∧
      e.Season = (decimal ss.toList : Int) ∧ e.EpisodeNumber = (decimal ee.toList : Int) ∧
      e.TVShow = d.CleanName (".".intercalate ws) := by
  have h : ∀ m ∈ ['E', 'e', 'x'],
      NewEpisode d (".".intercalate ws ++ "." ++ ss ++ String.singleton m ++ ee) = Outcome.ok
        { toMetadata := (d.ParseMetadataIndex "").2
          NameX := d.CleanName (".".intercalate ws)
          EpisodeX := (decimal ee.toList : Int)
          SeasonX := (decimal ss.toList : Int)
          EpisodeNameX := d.CleanName "" } := by
    intro m hm
    have hm' : (m == 'E' || m == 'e' || m == 'x') = true := by
      simp only [List.mem_cons, List.mem_singleton, List.not_mem_nil, or_false] at hm
      rcases hm with rfl | rfl | rfl <;> decide
    have h := NewEpisode_words d '.' m ws "" ss ee "" "" (by decide) (by decide)
      (by decide) hws (Or.inl rfl) hss hm' hee (Or.inl rfl) (by simp) (by simp) hidx
    have e : ".".intercalate ws ++ "." ++ ss ++ String.singleton m ++ ee =
        (String.singleton '.').intercalate ws ++ String.singleton '.' ++ "" ++ ss ++
          String.singleton m ++ ee ++ "" ++ "" := by
      have e₀ : String.singleton '.' = "." := rfl
      rw [e₀]
      apply String.ext
      simp [String.data_append]
    rw [e, h]
    rfl
  exact ⟨_, h, rfl, rfl, rfl⟩

/-- C8 (amended), instance: `Show.Name.1x02`, `Show.Name.1E02` and
`Show.Name.1e02`. -/
theorem C8_NewEpisode_markers_witness :
    (AlphabeticWords ["Show", "Name"] ∧ OneOrTwoDigits "1" ∧ OneOrTwoDigits "02" ∧
      BoundaryInRange specDeps "") ∧
    (∃ e, (∀ m ∈ ['E', 'e', 'x'],
        NewEpisode specDeps
          (".".intercalate ["Show", "Name"] ++ "." ++ "1" ++ String.singleton m ++ "02")
          = Outcome.ok e) ∧
      e.Season = (decimal "1".toList : Int) ∧ e.EpisodeNumber = (decimal "02".toList : Int) ∧
      e.TVShow = specDeps.CleanName (".".intercalate ["Show", "Name"])) ∧
    NewEpisode specDeps "Show.Name.1x02" = Outcome.ok ⟨Metadata.none, "Show Name", "", 2, 1⟩ :=
  ⟨⟨by decide, by decide, by decide, by decide⟩,
    C8_NewEpisode_markers specDeps ["Show", "Name"] "1" "02" (by decide) (by decide) (by decide)
      (by decide),
    by decide⟩

/-- C9: for the file name `N.SssEe1Ee2` of an episode pair, where `N` is one or
more words of ASCII letters separated by dots and `ss`, `e1`, `e2` have one or
two digits each, `NewEpisode` succeeds and keeps the first episode number: the
season is `ss`, the episode is `e1`, the second number is part of the match
but of no group, and the episode, hence its identity, is the one that
`NewEpisode` returns for `N.SssEe1`. The boundary that `ParseMetadataIndex`
returns for the empty tags is taken to be in range. -/
theorem C9_NewEpisode_keeps_first_episode (d : Deps) (ws : List String) (ss e₁ e₂ : String)
    (hws : AlphabeticWords ws) (hss : OneOrTwoDigits ss) (h₁ : OneOrTwoDigits e₁)
    (h₂ : OneOrTwoDigits e₂) (hidx : BoundaryInRange d "") :
    ∃ multi single,
      NewEpisode d (".".intercalate ws ++ ".S" ++ ss ++ "E" ++ e₁ ++ "E" ++ e₂)
        = Outcome.ok multi ∧
      NewEpisode d (".".intercalate ws ++ ".S" ++ ss ++ "E" ++ e₁) = Outcome.ok single ∧
      multi.Season = (decimal ss.toList : Int) ∧
      multi.EpisodeNumber = (decimal e₁.toList : Int) ∧
      multi = single ∧ multi.Identity d = single.Identity d ∧
      FindStringSubmatch episodeRegexp (".".intercalate ws ++ ".S" ++ ss ++ "E" ++ e₁ ++ "E" ++ e₂)
        = some [".".intercalate ws ++ ".S" ++ ss ++ "E" ++ e₁ ++ "E" ++ e₂,
            ".".intercalate ws, ss, e₁, ""] := by
  have hm := NewEpisode_words d '.' 'E' ws "S" ss e₁ (String.singleton 'E' ++ e₂) ""
    (by decide) (by decide) (by decide) hws (Or.inr (Or.inl rfl)) hss (by decide) h₁
    (Or.inr ⟨'E', e₂, rfl, by decide, h₂⟩) (by simp) (by simp) hidx
  have hs := NewEpisode_words d '.' 'E' ws "S" ss e₁ "" ""
    (by decide) (by decide) (by decide) hws (Or.inr (Or.inl rfl)) hss (by decide) h₁
    (Or.inl rfl) (by simp) (by simp) hidx
  have em : ".".intercalate ws ++ ".S" ++ ss ++ "E" ++ e₁ ++ "E" ++ e₂ =
      (String.singleton '.').intercalate ws ++ String.singleton '.' ++ "S" ++ ss ++
        String.singleton 'E' ++ e₁ ++ (String.singleton 'E' ++ e₂) ++ "" := by
    have e₀ : String.singleton '.' = "." := rfl
    have e₀' : String.singleton 'E' = "E" := rfl
    rw [e₀, e₀']
    apply String.ext
    simp [String.data_append]
  have es : ".".intercalate ws ++ ".S" ++ ss ++ "E" ++ e₁ =
      (String.singleton '.').intercalate ws ++ String.singleton '.' ++ "S" ++ ss ++
        String.singleton 'E' ++ e₁ ++ "" ++ "" := by
    have e₀ : String.singleton '.' = "." := rfl
    have e₀' : String.singleton 'E' = "E" := rfl
    rw [e₀, e₀']
    apply String.ext
    simp [String.data_append]
  refine ⟨_, _, by rw [em]; exact hm, by rw [es]; exact hs, ?_, ?_, ?_, ?_, ?_⟩
  · rfl
  · rfl
  · rfl
  · rfl
  obtain ⟨u, hu, hrest, c1, c2, c3, c4⟩ := episodeRegexp_head_words '.' 'E' (ws.map String.data)
    ['S'] ss.data e₁.data ('E' :: e₂.data) [] (by decide) (by decide) (by decide)
    (by simpa using hws.1) (words_data ws hws.2) (Or.inr (Or.inl rfl)) hss.1 hss.2 (by decide)
    h₁.1 h₁.2 (Or.inr ⟨'E', e₂.data, rfl, by decide, h₂⟩) (by simp) (by simp)
  have ht : ".".intercalate ws ++ ".S" ++ ss ++ "E" ++ e₁ ++ "E" ++ e₂ =
      String.mk (['.'].intercalate (ws.map String.data) ++
        '.' :: (['S'] ++ (ss.data ++ ('E' :: (e₁.data ++ (('E' :: e₂.data) ++ [])))))) := by
    apply String.ext
    simp only [String.data_append, intercalate_data, List.append_assoc, List.append_nil]
    rfl
  have hn : ".".intercalate ws = String.mk (['.'].intercalate (ws.map String.data)) := by
    apply String.ext
    rw [intercalate_data]
  have hF := FindStringSubmatch_of_head _ u hu hrest
  rw [c1, c2, c3, c4, ← ht, ← hn] at hF
  exact hF

/-- C9, instance: `Show.Name.S01E02E03` parses as `Show.Name.S01E02` does. -/
theorem C9_NewEpisode_keeps_first_episode_witness :
    (AlphabeticWords ["Show", "Name"] ∧ OneOrTwoDigits "01" ∧ OneOrTwoDigits "02" ∧
      OneOrTwoDigits "03" ∧ BoundaryInRange specDeps "") ∧
    (∃ multi single,
      NewEpisode specDeps (".".intercalate ["Show", "Name"] ++ ".S" ++ "01" ++ "E" ++ "02" ++
        "E" ++ "03") = Outcome.ok multi ∧
      NewEpisode specDeps (".".intercalate ["Show", "Name"] ++ ".S" ++ "01" ++ "E" ++ "02")
        = Outcome.ok single ∧
      multi.Season = (decimal "01".toList : Int) ∧
      multi.EpisodeNumber = (decimal "02".toList : Int) ∧
      multi = single ∧ multi.Identity specDeps = single.Identity specDeps ∧
      FindStringSubmatch episodeRegexp (".".intercalate ["Show", "Name"] ++ ".S" ++ "01" ++ "E" ++
          "02" ++ "E" ++ "03")
        = some [".".intercalate ["Show", "Name"] ++ ".S" ++ "01" ++ "E" ++ "02" ++ "E" ++ "03",
            ".".intercalate ["Show", "Name"], "01", "02", ""]) ∧
    NewEpisode specDeps "Show.Name.S01E02E03" =
      Outcome.ok ⟨Metadata.none, "Show Name", "", 2, 1⟩ :=
  ⟨⟨by decide, by decide, by decide, by decide, by decide⟩,
    C9_NewEpisode_keeps_first_episode specDeps ["Show", "Name"] "01" "02" "03" (by decide)
      (by decide) (by decide) (by decide) (by decide),
    by decide⟩

/-! ### Texts on which the pattern cannot match -/

/-- An outcome of a class has consumed one rune of the class. -/
theorem Regex.mem_run_cls (p : Char → Bool) (t u : Thread) (h : u ∈ (Regex.cls p).run t) :
    ∃ c, p c = true ∧ t.rest = c :: u.rest := by
  obtain ⟨pos, rest, caps⟩ := t
  cases rest with
  | nil => simp [Regex.run_cls_nil] at h
  | cons c cs =>
    rw [Regex.run_cls_cons] at h
    by_cases hc : p c = true
    · simp only [hc, if_true, List.mem_singleton] at h
      subst h
      exact ⟨c, hc, rfl⟩
    · simp [hc] at h

/-- What `p{1,2}` consumes ends with a rune of the class and begins with one. -/
theorem Regex.mem_run_rep12 (p : Char → Bool) (t u : Thread)
    (h : u ∈ (Regex.rep12 (Regex.cls p)).run t) :
    (∃ pre d, p d = true ∧ t.rest = pre ++ d :: u.rest) ∧
      (∃ e r, p e = true ∧ t.rest = e :: r) := by
  rw [Regex.run_rep12, List.mem_flatMap] at h
  obtain ⟨v, hv, hu⟩ := h
  obtain ⟨a, ha, hta⟩ := Regex.mem_run_cls p t v hv
  refine ⟨?_, a, v.rest, ha, hta⟩
  rw [Regex.run_opt] at hu
  simp only [if_true, List.mem_append, List.mem_singleton] at hu
  rcases hu with hu | rfl
  · obtain ⟨b, hb, hvb⟩ := Regex.mem_run_cls p v u hu
    exact ⟨[a], b, hb, by rw [hta, hvb]; rfl⟩
  · exact ⟨[], a, ha, hta⟩

/-- An outcome of a group is an outcome of its body, up to the captures. -/
theorem Regex.mem_run_cap (n : Nat) (r : Regex) (t u : Thread) (h : u ∈ (Regex.cap n r).run t) :
    ∃ v, v ∈ r.run t ∧ v.rest = u.rest := by
  rw [Regex.run_cap, List.mem_map] at h
  obtain ⟨v, hv, rfl⟩ := h
  exact ⟨v, hv, rfl⟩

/-- Wherever `episodeRegexp` matches, the text ahead holds a digit, one of the
letters `E`, `e`, `x`, and a digit in a row. -/
theorem episodeRegexp_mem (t u : Thread) (h : u ∈ episodeRegexp.run t) :
    ∃ pre d m e post, t.rest = pre ++ d :: m :: e :: post ∧ isDigit d = true ∧
      (m == 'E' || m == 'e' || m == 'x') = true ∧ isDigit e = true := by
  rw [episodeRegexp] at h
  simp only [Regex.run_seq, List.mem_flatMap] at h
  obtain ⟨t₁, h₁, t₂, h₂, t₃, h₃, t₄, h₄, t₅, h₅, t₆, h₆, t₇, h₇, -⟩ := h
  have c₁ := Regex.run_consumed _ _ _ h₁
  have c₂ := Regex.run_consumed _ _ _ h₂
  have c₃ := Regex.run_consumed _ _ _ h₃
  have c₄ := Regex.run_consumed _ _ _ h₄
  obtain ⟨w, hw, -⟩ := ((c₁.trans c₂).trans c₃).trans c₄
  obtain ⟨v₅, hv₅, e₅⟩ := Regex.mem_run_cap _ _ _ _ h₅
  obtain ⟨⟨pre, d, hd, hpre⟩, -⟩ := Regex.mem_run_rep12 _ _ _ hv₅
  obtain ⟨m, hm, hm'⟩ := Regex.mem_run_cls _ _ _ h₆
  obtain ⟨v₇, hv₇, -⟩ := Regex.mem_run_cap _ _ _ _ h₇
  obtain ⟨-, e, r, he, he'⟩ := Regex.mem_run_rep12 _ _ _ hv₇
  refine ⟨w ++ pre, d, m, e, r, ?_, hd, hm, he⟩
  rw [hw, hpre, e₅, hm', he', List.append_assoc]

/-- A report of `find` comes with a digit, one of the letters `E`, `e`, `x`, and
a digit in a row. -/
theorem episodeRegexp_find_some (text : List Char) (pos : Nat) (m : List (List Char))
    (h : episodeRegexp.find pos text = some m) :
    ∃ pre d m e post, text = pre ++ d :: m :: e :: post ∧ isDigit d = true ∧
      (m == 'E' || m == 'e' || m == 'x') = true ∧ isDigit e = true := by
  have hat : ∀ pos rest, (episodeRegexp.findAt pos rest).isSome →
      ∃ pre d m e post, rest = pre ++ d :: m :: e :: post ∧ isDigit d = true ∧
        (m == 'E' || m == 'e' || m == 'x') = true ∧ isDigit e = true := by
    intro pos rest hsome
    rw [Regex.findAt] at hsome
    cases hh : (episodeRegexp.run ⟨pos, rest, fun _ => []⟩).head? with
    | none => simp [hh] at hsome
    | some u => exact episodeRegexp_mem _ u (List.mem_of_mem_head? hh)
  induction text generalizing pos with
  | nil =>
    rw [Regex.find] at h
    exact hat pos [] (by simp [h])
  | cons c cs ih =>
    rw [Regex.find] at h
    cases hf : episodeRegexp.findAt pos (c :: cs) with
    | some m' => exact hat pos (c :: cs) (by simp [hf])
    | none =>
      rw [hf] at h
      obtain ⟨pre, d, m, e, post, hcs, hd, hm, he⟩ := ih (pos + 1) h
      exact ⟨c :: pre, d, m, e, post, by rw [hcs]; rfl, hd, hm, he⟩

/-- An occurrence of digit, marker, digit is found by `containsMarker`. -/
theorem containsMarker_of_occurrence (isMark : Char → Bool) (pre : List Char) (d m e : Char)
    (post : List Char) (hd : isDigit d = true) (hm : isMark m = true) (he : isDigit e = true) :
    containsMarker isMark (pre ++ d :: m :: e :: post) = true := by
  induction pre with
  | nil => simp [containsMarker, hd, hm, he]
  | cons c cs ih =>
    have e : ∀ tl, containsMarker isMark (c :: tl) =
        ((match tl with
          | m :: e :: _ => isDigit c && isMark m && isDigit e
          | _ => false) || containsMarker isMark tl) := fun _ => rfl
    rw [List.cons_append, e, ih, Bool.or_true]

/-- Function `NewEpisode` reports an error when `find` reports nothing. -/
theorem NewEpisode_of_find_none (d : Deps) (filename : String)
    (h : episodeRegexp.find 0 filename.toList = none) :
    NewEpisode d filename = Outcome.error "could not parse episode" := by
  have h' : FindStringSubmatch episodeRegexp filename = none := by
    rw [FindStringSubmatch, h]
    rfl
  rw [NewEpisode, h']

/-- C10: `NewEpisode` returns the error "could not parse episode", and no
episode, for every file name in which no digit, marker letter (`E`, `e`, `x`,
`X`) and digit occur in a row; in particular for the empty file name and for
every file name without a decimal digit. -/
theorem C10_NewEpisode_fails_without_marker (d : Deps) :
    (∀ filename : String, containsMarker isMarkerLetter filename.toList = false →
      NewEpisode d filename = Outcome.error "could not parse episode") ∧
    NewEpisode d "" = Outcome.error "could not parse episode" ∧
    (∀ filename : String, (∀ c ∈ filename.toList, isDigit c = false) →
      NewEpisode d filename = Outcome.error "could not parse episode") := by
  have key : ∀ filename : String,
      (¬ ∃ pre d m e post, filename.toList = pre ++ d :: m :: e :: post ∧ isDigit d = true ∧
        (m == 'E' || m == 'e' || m == 'x') = true ∧ isDigit e = true) →
      NewEpisode d filename = Outcome.error "could not parse episode" := by
    intro filename hno
    apply NewEpisode_of_find_none
    cases hf : episodeRegexp.find 0 filename.toList with
    | none => rfl
    | some m => exact absurd (episodeRegexp_find_some _ 0 m hf) hno
  refine ⟨?_, ?_, ?_⟩
  · intro filename hno
    apply key
    rintro ⟨pre, d', m, e, post, htext, hd, hm, he⟩
    have hm' : isMarkerLetter m = true := by
      simp only [Bool.or_eq_true] at hm
      simp only [isMarkerLetter, Bool.or_eq_true]
      exact Or.inl hm
    rw [htext, containsMarker_of_occurrence isMarkerLetter pre d' m e post hd hm' he] at hno
    exact absurd hno (by decide)
  · apply key
    rintro ⟨pre, d', m, e, post, htext, -⟩
    have : ([] : List Char).length = (pre ++ d' :: m :: e :: post).length :=
      congrArg List.length htext
    simp at this
    omega
  · intro filename hno
    apply key
    rintro ⟨pre, d', m, e, post, htext, hd, -⟩
    have := hno d' (by rw [htext]; simp)
    rw [hd] at this
    exact absurd this (by decide)

/-- C10, instances: a movie file name with a year and no marker, and a file
name without digits. -/
theorem C10_NewEpisode_fails_without_marker_witness :
    (containsMarker isMarkerLetter "Inception.2010.720p".toList = false ∧
      NewEpisode specDeps "Inception.2010.720p" = Outcome.error "could not parse episode") ∧
    NewEpisode specDeps "" = Outcome.error "could not parse episode" ∧
    ((∀ c ∈ "The.Office".toList, isDigit c = false) ∧
      NewEpisode specDeps "The.Office" = Outcome.error "could not parse episode") :=
  ⟨⟨by decide, (C10_NewEpisode_fails_without_marker specDeps).1 "Inception.2010.720p" (by decide)⟩,
    (C10_NewEpisode_fails_without_marker specDeps).2.1,
    ⟨by decide, (C10_NewEpisode_fails_without_marker specDeps).2.2 "The.Office" (by decide)⟩⟩

/-! ## The media list -/

/-- The loop of `Filter` appends to what it has collected the elements that
satisfy the predicate, in their order. -/
theorem Filter_collect_eq (p : Media → Bool) (acc ms : List Media) :
    MediaList.Filter.collect p acc ms = acc ++ ms.filter p := by
  induction ms generalizing acc with
  | nil => simp [MediaList.Filter.collect]
  | cons m ms ih =>
    by_cases h : p m = true
    · simp [MediaList.Filter.collect, h, ih]
    · simp [MediaList.Filter.collect, h, ih]

/-- C11: for every media list `l` and predicate `p`, `l.Filter(p)` is a new
list that holds, in their original order, exactly the elements of `l` for
which `p` is true, and `l` is unchanged; hence its length is the number of
elements that satisfy `p`. On the list of the test, of six videos and six
subtitles: `FilterVideo` has length 6 and holds the videos, `FilterSubtitles`
has length 6 and holds the subtitles, `FilterMovies` has length 3,
`FilterEpisodes` has length 3, and the predicate that matches the movie
"Inception" alone gives length 1. -/
theorem C11_Filter (l : MediaList) (p : Media → Bool) :
    (l.Filter p).2.List = l.List.filter p ∧
      (l.Filter p).2.List.Sublist l.List ∧
      (∀ m, m ∈ (l.Filter p).2.List ↔ m ∈ l.List ∧ p m = true) ∧
      (l.Filter p).1 = l ∧
      (l.Filter p).2.Len = l.List.countP p ∧
      (list_test.list.Len = 12 ∧
        list_test.list.FilterVideo.2.Len = 6 ∧
        list_test.list.FilterVideo.2.List = list_test.videos ∧
        list_test.list.FilterSubtitles.2.Len = 6 ∧
        list_test.list.FilterSubtitles.2.List = list_test.subtitles ∧
        list_test.list.FilterMovies.2.Len = 3 ∧
        list_test.list.FilterMovies.2.List = list_test.movies ∧
        list_test.list.FilterEpisodes.2.Len = 3 ∧
        list_test.list.FilterEpisodes.2.List = list_test.episodes ∧
        (list_test.list.Filter (fun m => m == Media.movie inception)).2.Len = 1 ∧
        (list_test.list.Filter (fun m => m == Media.movie inception)).2.List
          = [Media.movie inception] ∧
        list_test.list.FilterVideo.1 = list_test.list) := by
  have h : (l.Filter p).2.List = l.List.filter p := by
    show MediaList.Filter.collect p [] l.items = l.items.filter p
    rw [Filter_collect_eq, List.nil_append]
  refine ⟨h, ?_, ?_, rfl, ?_, ?_⟩
  · rw [h]
    exact List.filter_sublist l.List
  · intro m
    rw [h, List.mem_filter]
  · show (l.Filter p).2.List.length = l.List.countP p
    rw [h, List.countP_eq_length_filter]
  · decide

/-! ## Notification levels -/

/-- The label is "unknown" for every level but `LevelDebug`, `LevelInfo`,
`LevelWarn` and `LevelFatal`. -/
theorem notify.Level.String_eq_unknown_iff (l : notify.Level) :
    l.String = "unknown" ↔
      l ≠ notify.LevelDebug ∧ l ≠ notify.LevelInfo ∧ l ≠ notify.LevelWarn ∧
        l ≠ notify.LevelFatal := by
  unfold notify.Level.String
  by_cases h₀ : l = notify.LevelDebug
  · simp [h₀]
  · by_cases h₁ : l = notify.LevelInfo
    · simp [h₁]
      decide
    · by_cases h₂ : l = notify.LevelWarn
      · simp [h₂]
        decide
      · by_cases h₄ : l = notify.LevelFatal
        · simp [h₄]
          decide
        · simp [h₀, h₁, h₂, h₄]

/-- C12 (the code at the failing input): `Level.String` returns "unknown" for
the defined level `LevelError`, for which the `switch` has no case; the other
four defined levels get their own names, and a value outside the defined
levels gets "unknown" as well. -/
theorem C12_LevelError_String_is_unknown :
    notify.LevelError.String = "unknown" ∧
      notify.LevelDebug.String = "debug" ∧ notify.LevelInfo.String = "info" ∧
      notify.LevelWarn.String = "warn" ∧ notify.LevelFatal.String = "fatal" ∧
      notify.Level.String ⟨5⟩ = "unknown" := by
  decide

end Supper
